import Mathlib

/-!
Verification development for the BTN Originals study-song generator
(`app.py`).  The Python functions `clean_lyrics`, `local_single_word_keywords`,
`generate_keywords_per_page`, `try_parse_json` and `generate_songs` are
shallowly embedded as executable Lean functions over `List Char` / `String`.
Each regular-expression substitution of the source is realised as a bespoke
total recursive function that reproduces the leftmost / greedy / non-greedy
semantics of the concrete pattern used in the source.  Scanning functions are
written with an explicit fuel argument (structural recursion, so that terms
reduce definitionally); every wrapper passes fuel equal to the list length,
which every scan step strictly decreases, so the fuel-exhausted branch is
never reached from a wrapper.  Python `\w` and `str.isdigit` are modelled at
the ASCII level (the repository only ever feeds ASCII-oriented data through
these paths).
-/

/-- The characters Python regards as `\s` (ASCII part), used by `str.split()`,
`str.strip()` and the `\s` character class. -/
def pyIsSpace (c : Char) : Bool :=
  c = ' ' || c = '\t' || c = '\n' || c = '\r' || c = '\x0b' || c = '\x0c'

/-- Opening brace character (written via its code point). -/
def lbrace : Char := Char.ofNat 123

/-- Closing brace character (written via its code point). -/
def rbrace : Char := Char.ofNat 125

/-- The operator character class of the source operator-fragment pattern. -/
def isOpChar (c : Char) : Bool :=
  c = '=' || c = '↔' || c = '→' || c = '<' || c = '>' ||
  c = '+' || c = '-' || c = '/' || c = '*' || c = '^'

/-- Python regex `\w` (word character), modelled at the ASCII level. -/
def isWordChar (c : Char) : Bool :=
  c.isAlphanum || c = '_'

/-- Index of the first occurrence of `pat` in `l` (as a contiguous segment). -/
def findOcc (pat : List Char) : List Char → Option Nat
  | [] => if pat = [] then some 0 else none
  | c :: cs =>
    if pat.isPrefixOf (c :: cs) then some 0
    else (findOcc pat cs).map (· + 1)

/-- Replacement text of the formula redaction rules. -/
def fPlaceholder : List Char := (" [formula] " : String).toList

/-- Replacement text of the numeric redaction rules. -/
def nPlaceholder : List Char := (" [num] " : String).toList

/-- Fuel-indexed scan of `re.sub(r"\$\$.*?\$\$", " [formula] ", s, flags=re.S)`:
every non-greedy double-dollar delimited span becomes the formula
placeholder. -/
def subDDF : Nat → List Char → List Char
  | 0, l => l
  | _ + 1, [] => []
  | fuel + 1, c :: rest =>
    if c = '$' then
      match rest with
      | '$' :: rest2 =>
        match findOcc ['$', '$'] rest2 with
        | some j => fPlaceholder ++ subDDF fuel (rest2.drop (j + 2))
        | none => '$' :: subDDF fuel ('$' :: rest2)
      | _ => c :: subDDF fuel rest
    else c :: subDDF fuel rest

/-- The double-dollar formula rule (`app.py` line 183). -/
def subDD (l : List Char) : List Char := subDDF l.length l

/-- Fuel-indexed scan of `re.sub(r"\$.*?\$", " [formula] ", s, flags=re.S)`. -/
def subDF : Nat → List Char → List Char
  | 0, l => l
  | _ + 1, [] => []
  | fuel + 1, c :: rest =>
    if c = '$' then
      match findOcc ['$'] rest with
      | some j => fPlaceholder ++ subDF fuel (rest.drop (j + 1))
      | none => '$' :: subDF fuel rest
    else c :: subDF fuel rest

/-- The single-dollar formula rule (`app.py` line 184). -/
def subD (l : List Char) : List Char := subDF l.length l

/-- Length of the maximal leading run of non-newline characters
(the reach of the `[^\n]` windows). -/
def nnRun : List Char → Nat
  | [] => 0
  | c :: cs => if c = '\n' then 0 else nnRun cs + 1

/-- Length of the maximal leading run of operator characters. -/
def opRun : List Char → Nat
  | [] => 0
  | c :: cs => if isOpChar c then opRun cs + 1 else 0

/-- An operator cluster (two or more consecutive operator characters)
starts at offset `i` of `l`. -/
def clusterAt (l : List Char) (i : Nat) : Bool :=
  2 ≤ opRun (l.drop i)

/-- Largest offset `a ≤ bound` at which an operator cluster starts: the
backtracking choice of the greedy leading `[^\n]{0,40}` window. -/
def findA (l : List Char) : Nat → Option Nat
  | 0 => if clusterAt l 0 then some 0 else none
  | a + 1 => if clusterAt l (a + 1) then some (a + 1) else findA l a

/-- Attempt of the operator-fragment pattern (up to 40 non-newline characters,
then two or more operator characters, then up to 40 non-newline characters)
anchored at the head of `l`: on success the lengths of the three greedy
parts. -/
def opMatchHere (l : List Char) : Option (Nat × Nat × Nat) :=
  match findA l (min 40 (nnRun l)) with
  | some a =>
    let b := opRun (l.drop a)
    some (a, b, min 40 (nnRun (l.drop (a + b))))
  | none => none

/-- Fuel-indexed scan of the operator-fragment rule (`app.py` line 187): each
leftmost match of the operator-fragment pattern is replaced by the formula
placeholder when its total length exceeds 12 and kept verbatim otherwise. -/
def opSubF : Nat → List Char → List Char
  | 0, l => l
  | _ + 1, [] => []
  | fuel + 1, c :: cs =>
    match opMatchHere (c :: cs) with
    | some (a, b, cc) =>
      let t := max 1 (a + b + cc)
      (if 12 < a + b + cc then fPlaceholder else (c :: cs).take t) ++
        opSubF fuel ((c :: cs).drop t)
    | none => c :: opSubF fuel cs

/-- The operator-fragment rule. -/
def opSub (l : List Char) : List Char := opSubF l.length l

/-- Fuel-indexed scan of `re.sub(r"\b\d{4,}\b", " [num] ", s)`: a maximal
digit run of length at least 4, flanked by word boundaries, becomes the
numeric placeholder.  `prevWord` records whether the previously scanned
original character was a word character (boundaries are judged on the
original text, as `re.sub` does). -/
def subLongNumF : Nat → Bool → List Char → List Char
  | 0, _, l => l
  | _ + 1, _, [] => []
  | fuel + 1, prevWord, c :: cs =>
    if !prevWord && c.isDigit then
      let ds := cs.takeWhile Char.isDigit
      let rest := cs.dropWhile Char.isDigit
      let nextOk := match rest with
        | [] => true
        | r :: _ => !isWordChar r
      if 4 ≤ ds.length + 1 && nextOk then nPlaceholder ++ subLongNumF fuel true rest
      else (c :: ds) ++ subLongNumF fuel true rest
    else c :: subLongNumF fuel (isWordChar c) cs

/-- The long-number rule (`app.py` line 190). -/
def subLongNum (l : List Char) : List Char := subLongNumF l.length false l

/-- Fuel-indexed `re.findall(r"\b\d+\b", s)`: the standalone numeric tokens of
the text, in order — maximal digit runs flanked by word boundaries. -/
def numTokensF : Nat → Bool → List Char → List (List Char)
  | 0, _, _ => []
  | _ + 1, _, [] => []
  | fuel + 1, prevWord, c :: cs =>
    if !prevWord && c.isDigit then
      let ds := cs.takeWhile Char.isDigit
      let rest := cs.dropWhile Char.isDigit
      let nextOk := match rest with
        | [] => true
        | r :: _ => !isWordChar r
      if nextOk then (c :: ds) :: numTokensF fuel true rest
      else numTokensF fuel true rest
    else numTokensF fuel (isWordChar c) cs

/-- The standalone numeric tokens (`re.findall(r"\b\d+\b", s)`,
`app.py` line 193). -/
def numTokens (l : List Char) : List (List Char) := numTokensF l.length false l

/-- Fuel-indexed scan of the counting replacement `_replace_late_nums`
(`app.py` lines 195-201): with `k` tokens already counted, standalone numeric
tokens are kept while fewer than 6 have been counted and replaced by the
numeric placeholder afterwards. -/
def capF : Nat → Nat → Bool → List Char → List Char
  | 0, _, _, l => l
  | _ + 1, _, _, [] => []
  | fuel + 1, k, prevWord, c :: cs =>
    if !prevWord && c.isDigit then
      let ds := cs.takeWhile Char.isDigit
      let rest := cs.dropWhile Char.isDigit
      let nextOk := match rest with
        | [] => true
        | r :: _ => !isWordChar r
      if nextOk then
        if k < 6 then (c :: ds) ++ capF fuel (k + 1) true rest
        else nPlaceholder ++ capF fuel k true rest
      else (c :: ds) ++ capF fuel k true rest
    else c :: capF fuel k (isWordChar c) cs

/-- The numeric-cap stage of `clean_lyrics` (`app.py` lines 192-201): if more
than 6 standalone numeric tokens are present, re-substitute keeping the first
6 and redacting the rest; otherwise the string is left untouched. -/
def capStage (l : List Char) : List Char :=
  if 6 < (numTokens l).length then capF l.length 0 false l else l

/-- The literal `[formula]`. -/
def fLit : List Char := ("[formula]" : String).toList

/-- The literal `[num]`. -/
def nLit : List Char := ("[num]" : String).toList

/-- Fuel-indexed greedy repetition parse for `(\[formula\]\s*){2,}`: number of
consecutive `[formula]`-plus-whitespace repetitions at the head and their
total length. -/
def parseRepsFF : Nat → List Char → Nat × Nat
  | 0, _ => (0, 0)
  | fuel + 1, l =>
    if fLit.isPrefixOf l then
      let l1 := l.drop 9
      let ws := l1.takeWhile pyIsSpace
      let rest := l1.dropWhile pyIsSpace
      let pr := parseRepsFF fuel rest
      (pr.1 + 1, 9 + ws.length + pr.2)
    else (0, 0)

/-- Fuel-indexed greedy repetition parse for `(\[num\]\s*){2,}`. -/
def parseRepsNF : Nat → List Char → Nat × Nat
  | 0, _ => (0, 0)
  | fuel + 1, l =>
    if nLit.isPrefixOf l then
      let l1 := l.drop 5
      let ws := l1.takeWhile pyIsSpace
      let rest := l1.dropWhile pyIsSpace
      let pr := parseRepsNF fuel rest
      (pr.1 + 1, 5 + ws.length + pr.2)
    else (0, 0)

/-- Fuel-indexed scan of `re.sub(r"(\[formula\]\s*){2,}", "[formula] ", s)`:
chains of two or more formula placeholders (with interleaved whitespace)
collapse into one. -/
def collapseFF : Nat → List Char → List Char
  | 0, l => l
  | _ + 1, [] => []
  | fuel + 1, c :: cs =>
    let pr := parseRepsFF (c :: cs).length (c :: cs)
    if 2 ≤ pr.1 then
      ("[formula] " : String).toList ++ collapseFF fuel ((c :: cs).drop (max 1 pr.2))
    else c :: collapseFF fuel cs

/-- The formula-placeholder collapse rule (`app.py` line 204). -/
def collapseF (l : List Char) : List Char := collapseFF l.length l

/-- Fuel-indexed scan of `re.sub(r"(\[num\]\s*){2,}", "[num] ", s)`. -/
def collapseNF : Nat → List Char → List Char
  | 0, l => l
  | _ + 1, [] => []
  | fuel + 1, c :: cs =>
    let pr := parseRepsNF (c :: cs).length (c :: cs)
    if 2 ≤ pr.1 then
      ("[num] " : String).toList ++ collapseNF fuel ((c :: cs).drop (max 1 pr.2))
    else c :: collapseNF fuel cs

/-- The numeric-placeholder collapse rule (`app.py` line 205). -/
def collapseN (l : List Char) : List Char := collapseNF l.length l

/-- Fuel-indexed scan of `re.sub(r"\n{3,}", "\n\n", s)`: runs of three or more
newlines become exactly two. -/
def nlCollapseF : Nat → List Char → List Char
  | 0, l => l
  | _ + 1, [] => []
  | fuel + 1, c :: cs =>
    if c = '\n' then
      let ns := cs.takeWhile (fun x => x = '\n')
      let rest := cs.dropWhile (fun x => x = '\n')
      (if 2 ≤ ns.length then ['\n', '\n'] else c :: ns) ++ nlCollapseF fuel rest
    else c :: nlCollapseF fuel cs

/-- The newline-collapse rule (`app.py` line 208). -/
def nlCollapse (l : List Char) : List Char := nlCollapseF l.length l

/-- Horizontal whitespace of the pattern `[ \t]{2,}`. -/
def isHws (c : Char) : Bool := c = ' ' || c = '\t'

/-- Fuel-indexed scan of `re.sub(r"[ \t]{2,}", " ", s)`: runs of two or more
spaces/tabs become one space. -/
def hwsCollapseF : Nat → List Char → List Char
  | 0, l => l
  | _ + 1, [] => []
  | fuel + 1, c :: cs =>
    if isHws c then
      let ns := cs.takeWhile isHws
      let rest := cs.dropWhile isHws
      (if 1 ≤ ns.length then [' '] else [c]) ++ hwsCollapseF fuel rest
    else c :: hwsCollapseF fuel cs

/-- The horizontal-whitespace collapse rule (`app.py` line 209). -/
def hwsCollapse (l : List Char) : List Char := hwsCollapseF l.length l

/-- Python `str.strip()`. -/
def pyStrip (l : List Char) : List Char :=
  ((l.dropWhile pyIsSpace).reverse.dropWhile pyIsSpace).reverse

/-- The full post-processing pipeline of `clean_lyrics` on character lists,
stage for stage in source order. -/
def cleanChars (l : List Char) : List Char :=
  pyStrip (hwsCollapse (nlCollapse (collapseN (collapseF
    (capStage (subLongNum (opSub (subD (subDD l)))))))))

/-- `clean_lyrics` (`app.py` lines 173-211): falsy (empty) input is returned
unchanged, otherwise the redaction pipeline runs. -/
def clean_lyrics (s : String) : String :=
  if s = "" then s else (cleanChars s.toList).asString

/-- The `STOPWORDS` set of `app.py` (the triple-quoted string, split on
whitespace; the duplicate `an` of the source is kept, harmless for
membership). -/
def STOPWORDS : List String :=
  ["the", "and", "for", "with", "that", "this", "from", "are", "is", "was",
   "were", "be", "by", "to", "of", "in", "on", "as", "an", "at", "it", "its",
   "which", "a", "an"]

/-- Fuel-indexed Python `str.split()` (no separator): split on whitespace
runs, dropping empty pieces. -/
def pySplitWsF : Nat → List Char → List (List Char)
  | 0, _ => []
  | _ + 1, [] => []
  | fuel + 1, c :: cs =>
    if pyIsSpace c then pySplitWsF fuel cs
    else
      let tk := cs.takeWhile (fun x => !pyIsSpace x)
      let rest := cs.dropWhile (fun x => !pyIsSpace x)
      (c :: tk) :: pySplitWsF fuel rest

/-- Python `str.split()`. -/
def pySplitWs (l : List Char) : List (List Char) := pySplitWsF l.length l

/-- Fuel-indexed Python `text.split("\n\n")`: pieces between non-overlapping
leftmost occurrences of the blank-line separator (empty pieces kept). -/
def splitSepNNF : Nat → List Char → List (List Char)
  | 0, l => [l]
  | _ + 1, [] => [[]]
  | fuel + 1, c :: cs =>
    match findOcc ['\n', '\n'] (c :: cs) with
    | some j => (c :: cs).take j :: splitSepNNF fuel ((c :: cs).drop (j + 2))
    | none => [c :: cs]

/-- Python `text.split("\n\n")`. -/
def splitSepNN (l : List Char) : List (List Char) := splitSepNNF l.length l

/-- Fuel-indexed first-occurrence deduplication: key order of a Python
`Counter` built from a token list. -/
def dedupFirstF : Nat → List (List Char) → List (List Char)
  | 0, _ => []
  | _ + 1, [] => []
  | fuel + 1, x :: xs => x :: dedupFirstF fuel (xs.filter (fun y => y ≠ x))

/-- First-occurrence deduplication. -/
def dedupFirst (l : List (List Char)) : List (List Char) := dedupFirstF l.length l

/-- Ranking relation of `Counter.most_common`: count descending. -/
def rankRel (a b : List Char × Nat) : Prop := b.2 ≤ a.2

instance : DecidableRel rankRel := fun a b => inferInstanceAs (Decidable (b.2 ≤ a.2))

instance : IsTotal (List Char × Nat) rankRel := ⟨fun a b => le_total b.2 a.2⟩

instance : IsTrans (List Char × Nat) rankRel := ⟨fun _ _ _ h1 h2 => le_trans h2 h1⟩

/-- Stable sort, count descending: `Counter.most_common` order (insertion
sort: an element coming earlier in the original order is placed before every
later element of equal count, matching the tie behaviour of
`heapq.nlargest`). -/
def sortDesc (l : List (List Char × Nat)) : List (List Char × Nat) :=
  List.insertionSort rankRel l

/-- The token list of `local_single_word_keywords`: strip punctuation to
spaces, split on whitespace, keep tokens of length over 3 that are not pure
digits, lowercased. -/
def kwTokens (pageText : String) : List (List Char) :=
  let txt := pageText.toList.map (fun c => if c.isAlphanum || pyIsSpace c then c else ' ')
  ((pySplitWs txt).filter (fun t => 3 < t.length && !(t.all Char.isDigit))).map
    (fun t => t.map Char.toLower)

/-- The `(key, frequency)` items of the `Counter` after stopword removal, in
first-occurrence key order. -/
def kwItems (pageText : String) : List (List Char × Nat) :=
  ((dedupFirst (kwTokens pageText)).filter
    (fun k => !STOPWORDS.contains k.asString)).map
    (fun k => (k, (kwTokens pageText).count k))

/-- `local_single_word_keywords` (`app.py` lines 86-101): strip punctuation to
spaces, split, keep lowercased tokens of length over 3 that are not pure
digits, drop stopwords, and return the `topn` most frequent tokens (ties by
first occurrence). -/
def local_single_word_keywords (pageText : String) (topn : Nat) : List String :=
  if kwTokens pageText = [] then []
  else
    let ranked := sortDesc (kwItems pageText)
    (((ranked.take topn).map (fun p => p.1.asString)).take topn)

/-- `generate_keywords_per_page` (`app.py` lines 103-171), modelled on its
deterministic path (`model_available = False`; the external per-page model
call is a collaborator outside the embedding, and its failure path falls back
to `local_single_word_keywords` anyway): split the combined text on blank
lines, keep the non-empty stripped blocks, cap at `maxPages`, and emit one
comma-joined keyword line per block (an em-dash placeholder if a block yields
no keywords). -/
def generate_keywords_per_page (textContent : String) (maxPages : Nat) : String :=
  if textContent = "" then "No text to summarise."
  else
    let pages := (((splitSepNN textContent.toList).map pyStrip).filter
      (fun p => p ≠ [])).take maxPages
    let lines := pages.map (fun pt =>
      let kws := local_single_word_keywords pt.asString 10
      if kws ≠ [] then String.intercalate ", " (kws.take 10) else "—")
    String.intercalate "\n" lines

/-- JSON values as produced by `json.loads`.  Numbers keep their lexeme (the
pipeline never computes with them); objects are association lists with unique
keys in first-occurrence order, later duplicate keys overwriting the value,
as a Python `dict` does. -/
inductive Json where
  | null
  | bool (b : Bool)
  | num (lexeme : String)
  | str (s : String)
  | arr (elems : List Json)
  | obj (entries : List (String × Json))
deriving Repr

/-- JSON inter-token whitespace (`json.loads` accepts exactly these four). -/
def jsonWs (c : Char) : Bool := c = ' ' || c = '\t' || c = '\n' || c = '\r'

/-- Skip JSON whitespace. -/
def skipWs (l : List Char) : List Char := l.dropWhile jsonWs

/-- Hexadecimal digit value. -/
def hexVal (c : Char) : Option Nat :=
  if '0' ≤ c ∧ c ≤ '9' then some (c.toNat - 48)
  else if 'a' ≤ c ∧ c ≤ 'f' then some (c.toNat - 87)
  else if 'A' ≤ c ∧ c ≤ 'F' then some (c.toNat - 70)
  else none

/-- Fuel-indexed body of a JSON string after the opening quote: decoded
characters and the remainder after the closing quote.  Unescaped control
characters and unknown escapes are rejected as in strict `json.loads`;
`\uXXXX` escapes are decoded through `Char.ofNat` (surrogate-pair
recombination is not modelled; the repository never feeds surrogate escapes
through this path). -/
def parseStrBodyF : Nat → List Char → Option (List Char × List Char)
  | 0, _ => none
  | _ + 1, [] => none
  | _ + 1, '"' :: rest => some ([], rest)
  | fuel + 1, '\\' :: e :: rest =>
    if e = 'u' then
      match rest with
      | h1 :: h2 :: h3 :: h4 :: rest2 =>
        match hexVal h1, hexVal h2, hexVal h3, hexVal h4 with
        | some a, some b, some c, some d =>
          (parseStrBodyF fuel rest2).map
            (fun p => (Char.ofNat (a * 4096 + b * 256 + c * 16 + d) :: p.1, p.2))
        | _, _, _, _ => none
      | _ => none
    else
      let dec : Option Char :=
        if e = '"' then some '"'
        else if e = '\\' then some '\\'
        else if e = '/' then some '/'
        else if e = 'b' then some '\x08'
        else if e = 'f' then some '\x0c'
        else if e = 'n' then some '\n'
        else if e = 'r' then some '\r'
        else if e = 't' then some '\t'
        else none
      match dec with
      | some d => (parseStrBodyF fuel rest).map (fun p => (d :: p.1, p.2))
      | none => none
  | fuel + 1, c :: rest =>
    if c.toNat < 32 then none
    else (parseStrBodyF fuel rest).map (fun p => (c :: p.1, p.2))

/-- JSON string body parse. -/
def parseStrBody (l : List Char) : Option (List Char × List Char) :=
  parseStrBodyF l.length l

/-- Lexeme of a JSON number (`-?(0|[1-9][0-9]*)(\.[0-9]+)?([eE][+-]?[0-9]+)?`),
returned with the remainder. -/
def parseNumLex (l : List Char) : Option (List Char × List Char) :=
  let sgn : List Char × List Char :=
    match l with
    | '-' :: r => (['-'], r)
    | _ => ([], l)
  match sgn.2 with
  | [] => none
  | c :: r =>
    if c = '0' ∨ (c.isDigit ∧ c ≠ '0') then
      let intPart : List Char × List Char :=
        if c = '0' then ([c], r)
        else (c :: r.takeWhile Char.isDigit, r.dropWhile Char.isDigit)
      let frac : Option (List Char × List Char) :=
        match intPart.2 with
        | '.' :: fr =>
          let ds := fr.takeWhile Char.isDigit
          if ds = [] then none
          else some ('.' :: ds, fr.dropWhile Char.isDigit)
        | _ => some ([], intPart.2)
      match frac with
      | none => none
      | some fracPart =>
        let expo : Option (List Char × List Char) :=
          match fracPart.2 with
          | e :: er =>
            if e = 'e' ∨ e = 'E' then
              let sgn2 : List Char × List Char :=
                match er with
                | s :: sr => if s = '+' ∨ s = '-' then ([s], sr) else ([], er)
                | [] => ([], er)
              let ds := sgn2.2.takeWhile Char.isDigit
              if ds = [] then none
              else some (e :: (sgn2.1 ++ ds), sgn2.2.dropWhile Char.isDigit)
            else some ([], fracPart.2)
          | [] => some ([], fracPart.2)
        match expo with
        | none => none
        | some expoPart =>
          some (sgn.1 ++ intPart.1 ++ fracPart.1 ++ expoPart.1, expoPart.2)
    else none

/-- Insert-or-overwrite for object entries: a duplicate key keeps its first
position and takes the later value, as in a Python `dict`. -/
def upsert (kvs : List (String × Json)) (k : String) (v : Json) : List (String × Json) :=
  match kvs with
  | [] => [(k, v)]
  | (k1, v1) :: t => if k1 = k then (k1, v) :: t else (k1, v1) :: upsert t k v

/-- Key lookup in object entries. -/
def getKey (kvs : List (String × Json)) (k : String) : Option Json :=
  match kvs with
  | [] => none
  | (k1, v1) :: t => if k1 = k then some v1 else getKey t k

mutual

/-- Recursive-descent JSON value parse (fuel-indexed; the top level passes
more fuel than any input can consume, since every nested call is preceded by
the consumption of at least one character). -/
def parseVal : Nat → List Char → Option (Json × List Char)
  | 0, _ => none
  | fuel + 1, l0 =>
    match skipWs l0 with
    | [] => none
    | c :: rest =>
      if c = lbrace then parseMembers fuel (skipWs rest) [] true
      else if c = '[' then parseElems fuel (skipWs rest) [] true
      else if c = '"' then
        (parseStrBody rest).map (fun p => (Json.str p.1.asString, p.2))
      else if ("true".toList).isPrefixOf (c :: rest) then
        some (Json.bool true, (c :: rest).drop 4)
      else if ("false".toList).isPrefixOf (c :: rest) then
        some (Json.bool false, (c :: rest).drop 5)
      else if ("null".toList).isPrefixOf (c :: rest) then
        some (Json.null, (c :: rest).drop 4)
      else if ("NaN".toList).isPrefixOf (c :: rest) then
        some (Json.num "NaN", (c :: rest).drop 3)
      else if ("Infinity".toList).isPrefixOf (c :: rest) then
        some (Json.num "Infinity", (c :: rest).drop 8)
      else if ("-Infinity".toList).isPrefixOf (c :: rest) then
        some (Json.num "-Infinity", (c :: rest).drop 9)
      else
        (parseNumLex (c :: rest)).map (fun p => (Json.num p.1.asString, p.2))

/-- Object members: expects the closing brace (only when `allowEnd`, i.e.
immediately after the opening brace) or a `"key": value` pair followed by a
comma (more members required) or the closing brace. -/
def parseMembers : Nat → List Char → List (String × Json) → Bool →
    Option (Json × List Char)
  | 0, _, _, _ => none
  | fuel + 1, l, acc, allowEnd =>
    match l with
    | [] => none
    | c :: rest =>
      if c = rbrace ∧ allowEnd then some (Json.obj acc, rest)
      else if c = '"' then
        match parseStrBody rest with
        | none => none
        | some (kcs, r1) =>
          match skipWs r1 with
          | ':' :: r2 =>
            match parseVal fuel r2 with
            | none => none
            | some (v, r3) =>
              let acc1 := upsert acc kcs.asString v
              match skipWs r3 with
              | ',' :: r4 => parseMembers fuel (skipWs r4) acc1 false
              | r5 =>
                match r5 with
                | c2 :: r6 => if c2 = rbrace then some (Json.obj acc1, r6) else none
                | [] => none
          | _ => none
      else none

/-- Array elements: expects `]` (immediately after `[`) or a value followed by
`,` or `]`. -/
def parseElems : Nat → List Char → List Json → Bool → Option (Json × List Char)
  | 0, _, _, _ => none
  | fuel + 1, l, acc, allowEnd =>
    match l with
    | [] => none
    | c :: rest =>
      if c = ']' ∧ allowEnd then some (Json.arr acc.reverse, rest)
      else
        match parseVal fuel (c :: rest) with
        | none => none
        | some (v, r1) =>
          match skipWs r1 with
          | ',' :: r2 => parseElems fuel r2 (v :: acc) false
          | ']' :: r2 => some (Json.arr (v :: acc).reverse, r2)
          | _ => none

end

/-- `json.loads`: strict parse of the whole string (only trailing JSON
whitespace allowed), `none` on any error. -/
def jsonParse (s : String) : Option Json :=
  let l := s.toList
  match parseVal (l.length + 2) l with
  | some (v, rest) => if skipWs rest = [] then some v else none
  | none => none

/-- Index of the first occurrence of a character (`str.find`). -/
def findCharIdx (c : Char) (l : List Char) : Option Nat := findOcc [c] l

/-- Index of the last occurrence of a character (`str.rfind`). -/
def rfindCharIdx (c : Char) (l : List Char) : Option Nat :=
  match findOcc [c] l.reverse with
  | some j => some (l.length - 1 - j)
  | none => none

/-- `try_parse_json` (`app.py` lines 68-84): strict parse, then recovery on
the substring from the first opening brace to the last closing brace. -/
def try_parse_json (raw : String) : Option Json :=
  if raw = "" then none
  else
    match jsonParse raw with
    | some v => some v
    | none =>
      let l := raw.toList
      match findCharIdx lbrace l, rfindCharIdx rbrace l with
      | some st, some en =>
        if st < en then jsonParse (((l.drop st).take (en + 1 - st)).asString)
        else none
      | _, _ => none

/-- Fuel-indexed Python `str.replace` (all non-overlapping occurrences, left
to right).  The source only uses non-empty patterns; the empty pattern is
treated as a no-op to keep the function total. -/
def replaceAllF (pat rep : List Char) : Nat → List Char → List Char
  | 0, l => l
  | _ + 1, [] => []
  | fuel + 1, c :: cs =>
    if pat ≠ [] ∧ pat.isPrefixOf (c :: cs) then
      rep ++ replaceAllF pat rep fuel ((c :: cs).drop (max 1 pat.length))
    else c :: replaceAllF pat rep fuel cs

/-- Python `str.replace`. -/
def replaceAll (pat rep l : List Char) : List Char := replaceAllF pat rep l.length l

/-- `raw_text.replace("```json", "").replace("```", "").strip()`
(`app.py` line 312). -/
def fenceCleaned (raw : String) : String :=
  (pyStrip (replaceAll ("```".toList) [] (replaceAll ("```json".toList) [] raw.toList))).asString

/-- Python slice `s[:n]`. -/
def pyTake (n : Nat) (s : String) : String := (s.toList.take n).asString

/-- Whether a JSON number lexeme denotes zero (falsy in Python): no non-zero
digit in the mantissa.  (Float underflow of tiny non-zero lexemes is not
modelled; the pipeline never feeds numeric lyrics.) -/
def numIsZeroLex (lex : String) : Bool :=
  (lex.toList.takeWhile (fun c => c ≠ 'e' ∧ c ≠ 'E')).all
    (fun c => !(c.isDigit && c ≠ '0'))

/-- The loop body `s["lyrics"] = clean_lyrics(s.get("lyrics", ""))`
(`app.py` line 317) on one parsed song object.  `clean_lyrics` returns falsy
input unchanged, so a falsy non-string lyrics value (null, false, zero, empty
list/dict) is written back as is, while a truthy non-string makes `re.sub`
raise a `TypeError` (`none` here). -/
def postprocessSong (kvs : List (String × Json)) : Option (List (String × Json)) :=
  match getKey kvs "lyrics" with
  | none => some (upsert kvs "lyrics" (Json.str (clean_lyrics "")))
  | some (Json.str t) => some (upsert kvs "lyrics" (Json.str (clean_lyrics t)))
  | some Json.null => some (upsert kvs "lyrics" Json.null)
  | some (Json.bool b) =>
    if b then none else some (upsert kvs "lyrics" (Json.bool false))
  | some (Json.arr xs) =>
    if xs.isEmpty then some (upsert kvs "lyrics" (Json.arr xs)) else none
  | some (Json.obj o) =>
    if o.isEmpty then some (upsert kvs "lyrics" (Json.obj o)) else none
  | some (Json.num lex) =>
    if numIsZeroLex lex then some (upsert kvs "lyrics" (Json.num lex)) else none

/-- `for s in parsed.get("songs", []): ...` — each element must behave like a
dict; a non-dict element raises an `AttributeError` (`none` here). -/
def postprocessSongs : List Json → Option (List Json)
  | [] => some []
  | Json.obj kvs :: t =>
    match postprocessSong kvs, postprocessSongs t with
    | some kvs1, some t1 => some (Json.obj kvs1 :: t1)
    | _, _ => none
  | _ :: _ => none

/-- The fallback branch of `generate_songs` (`app.py` lines 319-332): wrap the
cleaned raw text as a single song. -/
def fallbackResult (cleaned : String) (styles : List String) :
    Except String (Option Json) :=
  Except.ok (some (Json.obj [("songs", Json.arr [Json.obj
    [("type", Json.str (styles.headD "Custom")),
     ("title", Json.str "BTN Originals — fallback output"),
     ("vibe_description", Json.str (pyTake 800 cleaned)),
     ("lyrics", Json.str (clean_lyrics cleaned))]])]))

/-- `generate_songs` (`app.py` lines 213-332).  Only the observable response
processing is embedded: `textContent` and `styles` reach the observable
result exactly as in the source (`textContent` only feeds the prompt of the
external call, whose reply is the input `clientText`).  `clientText = none`
models every path on which the source returns `None`: missing API key
(lines 221-223), model construction failure (lines 225-229) and a raised
`generate_content` call (lines 299-304).  `Except.error` models an uncaught
Python exception escaping the function; `Except.ok none` models `return
None`. -/
def generate_songs (textContent : String) (clientText : Option String)
    (styles : List String) : Except String (Option Json) :=
  match clientText with
  | none => Except.ok none
  | some rawText =>
    let cleaned := fenceCleaned rawText
    match try_parse_json cleaned with
    | some (Json.obj kvs) =>
      if !kvs.isEmpty && (getKey kvs "songs").isSome then
        match getKey kvs "songs" with
        | some (Json.arr songs) =>
          match postprocessSongs songs with
          | some songs1 =>
            Except.ok (some (Json.obj (upsert kvs "songs" (Json.arr songs1))))
          | none => Except.error "AttributeError"
        | some (Json.obj []) => Except.ok (some (Json.obj kvs))
        | some (Json.str "") => Except.ok (some (Json.obj kvs))
        | some _ => Except.error "TypeError"
        | none => Except.error "unreachable"
      else fallbackResult cleaned styles
    | _ => fallbackResult cleaned styles

/-- Python `str.lower()` (ASCII model). -/
def pyLower (s : String) : String := (s.toList.map Char.toLower).asString

/-- Does `sub` occur as a contiguous segment of `l`? -/
def segOccurs (sub : List Char) : List Char → Bool
  | [] => sub.isEmpty
  | c :: t => sub.isPrefixOf (c :: t) || segOccurs sub t

/-- Substring test (`sub in s` in Python). -/
def containsStr (sub s : String) : Bool := segOccurs sub.toList s.toList

/-- Case-insensitive test for the signature phrase `beyond the notz`. -/
def containsPhrase (s : String) : Bool := containsStr "beyond the notz" (pyLower s)

/-- The songs list of a `generate_songs` result, when one was returned. -/
def resultSongs (r : Except String (Option Json)) : Option (List Json) :=
  match r with
  | Except.ok (some (Json.obj kvs)) =>
    match getKey kvs "songs" with
    | some (Json.arr songs) => some songs
    | _ => none
  | _ => none

/-- The lyrics string of a song object, when it has one. -/
def songLyrics (j : Json) : Option String :=
  match j with
  | Json.obj kvs =>
    match getKey kvs "lyrics" with
    | some (Json.str t) => some t
    | _ => none
  | _ => none

/-- Whether `generate_songs` takes the validated parse path on this cleaned
text (`parsed and isinstance(parsed, dict) and "songs" in parsed`). -/
def parsePathTaken (cleaned : String) : Bool :=
  match try_parse_json cleaned with
  | some (Json.obj kvs) => !kvs.isEmpty && (getKey kvs "songs").isSome
  | _ => false

/-- Characters that trigger none of the redaction rules of `clean_lyrics`:
not a dollar sign, not an operator character, not a digit and not an opening
bracket.  On text made of such characters the pipeline only normalises
whitespace. -/
def plainChar (c : Char) : Bool :=
  !(c = '$' || isOpChar c || c.isDigit || c = '[')

/-- No three consecutive newline characters anywhere. -/
def noTripleNl : List Char → Bool
  | c1 :: c2 :: c3 :: t =>
    !(c1 = '\n' && c2 = '\n' && c3 = '\n') && noTripleNl (c2 :: c3 :: t)
  | _ => true

/-- No two consecutive horizontal-whitespace characters anywhere. -/
def noHwsPair : List Char → Bool
  | c1 :: c2 :: t => !(isHws c1 && isHws c2) && noHwsPair (c2 :: t)
  | _ => true


/-- Well-founded twin of `numTokensF`, used for proofs (it does not reduce
definitionally but enjoys clean equations). -/
def numTokensW (prevWord : Bool) : List Char → List (List Char)
  | [] => []
  | c :: cs =>
    if !prevWord && c.isDigit then
      let ds := cs.takeWhile Char.isDigit
      let rest := cs.dropWhile Char.isDigit
      let nextOk := match rest with
        | [] => true
        | r :: _ => !isWordChar r
      if nextOk then (c :: ds) :: numTokensW true rest
      else numTokensW true rest
    else numTokensW (isWordChar c) cs
termination_by l => l.length
decreasing_by
  all_goals simp only [List.length_cons]
  all_goals first
    | (have hdw : (List.dropWhile Char.isDigit cs).length ≤ cs.length :=
        (List.dropWhile_sublist Char.isDigit).length_le
       omega)
    | omega

/-- Well-founded twin of `capF`. -/
def capW (k : Nat) (prevWord : Bool) : List Char → List Char
  | [] => []
  | c :: cs =>
    if !prevWord && c.isDigit then
      let ds := cs.takeWhile Char.isDigit
      let rest := cs.dropWhile Char.isDigit
      let nextOk := match rest with
        | [] => true
        | r :: _ => !isWordChar r
      if nextOk then
        if k < 6 then (c :: ds) ++ capW (k + 1) true rest
        else nPlaceholder ++ capW k true rest
      else (c :: ds) ++ capW k true rest
    else c :: capW k (isWordChar c) cs
termination_by l => l.length
decreasing_by
  all_goals simp only [List.length_cons]
  all_goals first
    | (have hdw : (List.dropWhile Char.isDigit cs).length ≤ cs.length :=
        (List.dropWhile_sublist Char.isDigit).length_le
       omega)
    | omega

/-- Well-founded twin of `subLongNumF`. -/
def subLongNumW (prevWord : Bool) : List Char → List Char
  | [] => []
  | c :: cs =>
    if !prevWord && c.isDigit then
      let ds := cs.takeWhile Char.isDigit
      let rest := cs.dropWhile Char.isDigit
      let nextOk := match rest with
        | [] => true
        | r :: _ => !isWordChar r
      if 4 ≤ ds.length + 1 && nextOk then nPlaceholder ++ subLongNumW true rest
      else (c :: ds) ++ subLongNumW true rest
    else c :: subLongNumW (isWordChar c) cs
termination_by l => l.length
decreasing_by
  all_goals simp only [List.length_cons]
  all_goals first
    | (have hdw : (List.dropWhile Char.isDigit cs).length ≤ cs.length :=
        (List.dropWhile_sublist Char.isDigit).length_le
       omega)
    | omega

/-! ## Shared lemmas -/

/-- When the cleaned text does not satisfy the validated-parse condition,
`generate_songs` returns exactly the fallback wrap of the cleaned text. -/
theorem generate_songs_salvage_eq (textC raw : String) (styles : List String)
    (h : parsePathTaken (fenceCleaned raw) = false) :
    generate_songs textC (some raw) styles = fallbackResult (fenceCleaned raw) styles := by
  unfold generate_songs
  unfold parsePathTaken at h
  cases htp : try_parse_json (fenceCleaned raw) with
  | none => simp [htp]
  | some v =>
    cases v with
    | obj kvs =>
      rw [htp] at h
      have h1 : (!kvs.isEmpty && (getKey kvs "songs").isSome) = false := h
      simp only [htp]
      simp [h1]
    | null => simp [htp]
    | bool b => simp [htp]
    | num n => simp [htp]
    | str s => simp [htp]
    | arr a => simp [htp]

/-! ## Claims C1, C2, C3, C9 -/

/-- Claim C1, counterexample: for the raw output `This model refused to
comply.` (which lacks the signature phrase), the recovery returns exactly one
song and its lyrics still do not contain `beyond the notz` in any letter
case — no ad-lib-plus-signature block is prepended. -/
theorem generate_songs_salvage_lacks_phrase :
    containsPhrase "This model refused to comply." = false ∧
    ((resultSongs (generate_songs "photosynthesis occurs in chloroplasts"
      (some "This model refused to comply.") ["Desi Hip-Hop / Trap"])).getD []).length = 1 ∧
    ((resultSongs (generate_songs "photosynthesis occurs in chloroplasts"
      (some "This model refused to comply.") ["Desi Hip-Hop / Trap"])).getD []).all
      (fun s => !containsPhrase ((songLyrics s).getD "")) = true := by
  exact ⟨by decide, rfl, by decide⟩

/-- Claim C1 (amended): `generate_songs` performs no signature-phrase repair.
On every raw output whose cleaned text does not satisfy the validated-parse
condition, the returned record wraps the fence-cleaned text with its lyrics
equal to `clean_lyrics` of that text — nothing is prepended, so the phrase is
present in the output exactly when the sanitized text already contains it. -/
theorem generate_songs_no_signature_block (textC raw : String) (styles : List String)
    (h : parsePathTaken (fenceCleaned raw) = false) :
    resultSongs (generate_songs textC (some raw) styles) =
      some [Json.obj
        [("type", Json.str (styles.headD "Custom")),
         ("title", Json.str "BTN Originals — fallback output"),
         ("vibe_description", Json.str (pyTake 800 (fenceCleaned raw))),
         ("lyrics", Json.str (clean_lyrics (fenceCleaned raw)))]] ∧
    ((resultSongs (generate_songs textC (some raw) styles)).getD []).map songLyrics =
      [some (clean_lyrics (fenceCleaned raw))] := by
  rw [generate_songs_salvage_eq textC raw styles h]
  exact ⟨rfl, rfl⟩

/-- Witness for `generate_songs_no_signature_block` at the unstructured
refusal text. -/
theorem generate_songs_no_signature_block_witness :
    parsePathTaken (fenceCleaned "This model refused to comply.") = false ∧
    ((resultSongs (generate_songs "photosynthesis occurs in chloroplasts"
      (some "This model refused to comply.") ["Desi Hip-Hop / Trap"])).getD []).map songLyrics =
      [some "This model refused to comply."] :=
  ⟨by decide,
   ((generate_songs_no_signature_block "photosynthesis occurs in chloroplasts"
     "This model refused to comply." ["Desi Hip-Hop / Trap"] (by decide)).2).trans rfl⟩

/-- Claim C2, counterexample: the pipeline can return an empty songs
sequence (raw output `{"songs": []}` passes the validated-parse condition
with zero elements), returns no result at all on a client failure signal,
and raises on a songs list with a non-dict element. -/
theorem generate_songs_empty_and_error_results :
    resultSongs (generate_songs "p" (some "\x7b\"songs\": []\x7d") ["X"]) = some [] ∧
    generate_songs "p" none ["X"] = Except.ok none ∧
    generate_songs "p" (some "\x7b\"songs\": [\"x\"]\x7d") ["X"] =
      Except.error "AttributeError" :=
  ⟨rfl, rfl, rfl⟩

/-- Claim C2 (amended): on the salvage path (cleaned text failing the
validated-parse condition) `generate_songs` does return a result with exactly
one record; the never-raise / never-empty guarantee does not hold on the
other paths. -/
theorem generate_songs_salvage_returns_one_song (textC raw : String)
    (styles : List String) (h : parsePathTaken (fenceCleaned raw) = false) :
    ((resultSongs (generate_songs textC (some raw) styles)).getD []).length = 1 := by
  rw [generate_songs_salvage_eq textC raw styles h]
  rfl

/-- Witness for `generate_songs_salvage_returns_one_song`. -/
theorem generate_songs_salvage_returns_one_song_witness :
    parsePathTaken (fenceCleaned "not json at all") = false ∧
    ((resultSongs (generate_songs "chapter" (some "not json at all")
      ["Lofi Study Beats"])).getD []).length = 1 :=
  ⟨by decide,
   generate_songs_salvage_returns_one_song "chapter" "not json at all"
     ["Lofi Study Beats"] (by decide)⟩

/-- Claim C3, counterexample: on a client failure signal, even with
keyword-rich source pages, `generate_songs` returns `None` — no fallback
SongRecord is synthesized from local keyword anchors. -/
theorem generate_songs_failure_no_fallback_song :
    generate_songs "photosynthesis occurs in chloroplasts with chlorophyll" none
      ["Desi Hip-Hop / Trap"] = Except.ok none ∧
    resultSongs (generate_songs "photosynthesis occurs in chloroplasts with chlorophyll"
      none ["Desi Hip-Hop / Trap"]) = none :=
  ⟨rfl, rfl⟩

/-- Claim C3 (amended): when the generation client signals failure (external
call raised, capability absent or unconfigured), `generate_songs` yields no
result at all, for every source text and style selection. -/
theorem generate_songs_failure_returns_none (textC : String) (styles : List String) :
    generate_songs textC none styles = Except.ok none := rfl

/-- Claim C9: the per-page keyword operation emits one line per *block*
delimited by blank lines, not one line per page read: the combined text of a
single page whose extracted text contains an internal blank line
(`extract_text_from_pdf` appends `"Intro text here\n\nmore details follow"`
stripped plus a blank-line separator) produces two keyword lines, against the
docstring `number of lines == pages read`. -/
theorem keywords_two_lines_for_one_page :
    generate_keywords_per_page "Intro text here\n\nmore details follow\n\n" 35 =
      "intro, text, here\nmore, details, follow" ∧
    ((generate_keywords_per_page "Intro text here\n\nmore details follow\n\n" 35).toList.count
      '\n') = 1 :=
  ⟨rfl, rfl⟩

/-! ## Claims C4, C5, C6: counterexamples -/

/-- Claim C4, counterexample: the sanitizer is not idempotent.  On
`abc==cd 1234` the first pass keeps the 12-character operator fragment (not
over the 12-character threshold) and shortens `1234` to the numeric
placeholder, after which the line is 13 characters long, so a second pass
redacts the whole line to the formula placeholder. -/
theorem clean_lyrics_not_idempotent :
    clean_lyrics "abc==cd 1234" = "abc==cd [num]" ∧
    clean_lyrics (clean_lyrics "abc==cd 1234") = "[formula]" ∧
    clean_lyrics (clean_lyrics "abc==cd 1234") ≠ clean_lyrics "abc==cd 1234" := by
  refine ⟨rfl, rfl, ?_⟩
  decide

/-- Claim C5, counterexample: on `1234 1 2 3 4 5 6 7` (8 standalone numeric
tokens) the unredacted tokens of the sanitized output are `1`..`6` — the
first 6 tokens *remaining after* the 4-digit rule — not the earliest 6 tokens
of the input: `1234` (among the earliest 6) is redacted while `6` (the 7th
input token) survives. -/
theorem clean_lyrics_cap_not_input_order :
    (numTokens ("1234 1 2 3 4 5 6 7").toList).length = 8 ∧
    clean_lyrics "1234 1 2 3 4 5 6 7" = "[num] 1 2 3 4 5 6 [num]" ∧
    numTokens (clean_lyrics "1234 1 2 3 4 5 6 7").toList =
      [['1'], ['2'], ['3'], ['4'], ['5'], ['6']] ∧
    (numTokens ("1234 1 2 3 4 5 6 7").toList).take 6 =
      [['1', '2', '3', '4'], ['1'], ['2'], ['3'], ['4'], ['5']] := by
  exact ⟨rfl, rfl, by decide, by decide⟩

/-- Claim C6, counterexample: on `the cat sat sat sat on on on a mat` every
token has length at most 3, so all of them (including `sat`, `cat`, `mat`)
are discarded by the length filter and the extractor returns the empty list —
`sat` is not ranked above anything. -/
theorem keywords_scenario_empty :
    local_single_word_keywords "the cat sat sat sat on on on a mat" 5 = [] ∧
    "sat" ∉ local_single_word_keywords "the cat sat sat sat on on on a mat" 5 := by
  exact ⟨by decide, by decide⟩

/-! ## Claim C6: filtering and ranking of the keyword extractor -/

/-- Membership through first-occurrence deduplication. -/
theorem mem_of_mem_dedupFirstF {fuel : Nat} {l : List (List Char)} {x : List Char}
    (h : x ∈ dedupFirstF fuel l) : x ∈ l := by
  induction fuel generalizing l with
  | zero => simp [dedupFirstF] at h
  | succ fuel ih =>
    cases l with
    | nil => simp [dedupFirstF] at h
    | cons y ys =>
      simp only [dedupFirstF, List.mem_cons] at h
      rcases h with h | h
      · exact h ▸ List.mem_cons_self y ys
      · exact List.mem_cons_of_mem y (List.mem_of_mem_filter (ih h))

/-- Every item of `kwItems` carries the frequency of its key. -/
theorem kwItems_snd {p : String} {q : List Char × Nat} (h : q ∈ kwItems p) :
    q.2 = (kwTokens p).count q.1 := by
  unfold kwItems at h
  rcases List.mem_map.mp h with ⟨k, _, rfl⟩
  rfl

/-- Every item of `kwItems` is a surviving key: in the token list, not a
stopword. -/
theorem kwItems_key {p : String} {q : List Char × Nat} (h : q ∈ kwItems p) :
    q.1 ∈ kwTokens p ∧ (!STOPWORDS.contains q.1.asString) = true := by
  unfold kwItems at h
  rcases List.mem_map.mp h with ⟨k, hk, rfl⟩
  rcases List.mem_filter.mp hk with ⟨hk1, hk2⟩
  exact ⟨mem_of_mem_dedupFirstF hk1, hk2⟩

/-- `orderedInsert` places the new element at a single position, splitting
the list around it. -/
theorem orderedInsert_split {α : Type} (r : α → α → Prop) [DecidableRel r]
    (x : α) : ∀ l : List α, ∃ l₁ l₂, l = l₁ ++ l₂ ∧
      List.orderedInsert r x l = l₁ ++ x :: l₂ := by
  intro l
  induction l with
  | nil => exact ⟨[], [], rfl, rfl⟩
  | cons b t ih =>
    by_cases hrb : r x b
    · exact ⟨[], b :: t, rfl, by rw [List.orderedInsert, if_pos hrb]; rfl⟩
    · obtain ⟨l₁, l₂, he, hi⟩ := ih
      refine ⟨b :: l₁, l₂, by rw [List.cons_append, ← he], ?_⟩
      rw [List.orderedInsert, if_neg hrb, hi]
      rfl

/-- Inserting `x` into a list containing an element `y` it outranks keeps `x`
ahead of `y`. -/
theorem orderedInsert_pair {α : Type} (r : α → α → Prop) [DecidableRel r]
    {x y : α} : ∀ {l : List α}, y ∈ l → r x y →
      List.Sublist [x, y] (List.orderedInsert r x l) := by
  intro l
  induction l with
  | nil =>
    intro hy
    simp at hy
  | cons b t ih =>
    intro hy hr
    by_cases hrb : r x b
    · rw [List.orderedInsert, if_pos hrb]
      exact (List.singleton_sublist.mpr hy).cons₂ x
    · rw [List.orderedInsert, if_neg hrb]
      rcases List.mem_cons.mp hy with he | hm
      · exact absurd (he ▸ hr) hrb
      · exact (ih hm hr).cons b

/-- A pair's relative order survives the insertion of a new element. -/
theorem sublist_orderedInsert {α : Type} (r : α → α → Prop) [DecidableRel r]
    (x : α) {u v : α} {l : List α} (h : List.Sublist [u, v] l) :
    List.Sublist [u, v] (List.orderedInsert r x l) := by
  obtain ⟨l₁, l₂, he, hi⟩ := orderedInsert_split r x l
  rw [hi]
  have h2 : List.Sublist (l₁ ++ l₂) (l₁ ++ x :: l₂) :=
    List.Sublist.append_left (List.sublist_cons_self x l₂) l₁
  exact (he ▸ h).trans h2

/-- Stability of insertion sort: a pair already in the order demanded by the
relation keeps its relative order in the sorted output; with a total
relation this pins the order of tied elements to the input order. -/
theorem insertionSort_pair_stable {α : Type} (r : α → α → Prop) [DecidableRel r]
    {x y : α} : ∀ {l : List α}, List.Sublist [x, y] l → r x y →
      List.Sublist [x, y] (List.insertionSort r l) := by
  intro l
  induction l with
  | nil =>
    intro h _
    simp at h
  | cons b t ih =>
    intro h hr
    rw [List.insertionSort]
    cases h with
    | cons _ h2 => exact sublist_orderedInsert r b (ih h2 hr)
    | cons₂ _ h2 =>
      have hy : y ∈ List.insertionSort r t :=
        ((List.perm_insertionSort r t).mem_iff).mpr (List.singleton_sublist.mp h2)
      exact orderedInsert_pair r hy hr

/-- First-occurrence deduplication yields a duplicate-free list. -/
theorem dedupFirstF_nodup : ∀ (fuel : Nat) (l : List (List Char)),
    (dedupFirstF fuel l).Nodup := by
  intro fuel
  induction fuel with
  | zero =>
    intro l
    exact List.nodup_nil
  | succ fuel ih =>
    intro l
    cases l with
    | nil => exact List.nodup_nil
    | cons x xs =>
      rw [dedupFirstF]
      refine List.nodup_cons.mpr ⟨?_, ih _⟩
      intro hmem
      have hx := mem_of_mem_dedupFirstF hmem
      have := (List.mem_filter.mp hx).2
      simp at this

/-- The counter items carry pairwise-distinct keys. -/
theorem kwItems_nodup (p : String) : (kwItems p).Nodup := by
  rw [kwItems]
  refine List.Nodup.map ?_ (List.Nodup.filter _ (dedupFirstF_nodup _ _))
  intro a b hab
  exact congrArg Prod.fst hab

/-- Two distinct members of a list occur in one of the two orders. -/
theorem pair_sublist_of_mem {α : Type} {x y : α} : ∀ {L : List α},
    x ∈ L → y ∈ L → x ≠ y →
      List.Sublist [x, y] L ∨ List.Sublist [y, x] L := by
  intro L
  induction L with
  | nil =>
    intro hx
    simp at hx
  | cons a t ih =>
    intro hx hy hne
    rcases List.mem_cons.mp hx with hxa | hxt
    · rcases List.mem_cons.mp hy with hya | hyt
      · exact absurd (hxa.trans hya.symm) hne
      · left
        rw [hxa]
        exact (List.singleton_sublist.mpr hyt).cons₂ a
    · rcases List.mem_cons.mp hy with hya | hyt
      · right
        rw [hya]
        exact (List.singleton_sublist.mpr hxt).cons₂ a
      · rcases ih hxt hyt hne with h | h
        · exact Or.inl (h.cons a)
        · exact Or.inr (h.cons a)

/-- In a duplicate-free list a pair cannot occur in both orders. -/
theorem pair_sublist_antisymm {α : Type} {x y : α} : ∀ {L : List α}, L.Nodup →
    List.Sublist [x, y] L → List.Sublist [y, x] L → x = y := by
  intro L
  induction L with
  | nil =>
    intro _ h
    simp at h
  | cons a t ih =>
    intro hnd h1 h2
    obtain ⟨hna, hndt⟩ := List.nodup_cons.mp hnd
    cases h1 with
    | cons _ h1a =>
      cases h2 with
      | cons _ h2a => exact ih hndt h1a h2a
      | cons₂ _ h2a =>
        exact absurd (h1a.subset (by simp)) hna
    | cons₂ _ h1a =>
      cases h2 with
      | cons _ h2a =>
        exact absurd (h2a.subset (by simp)) hna
      | cons₂ _ h2a => rfl

/-- A duplicate-free list has no repeated-element pair. -/
theorem not_pair_self_sublist {α : Type} [DecidableEq α] {x : α} {L : List α}
    (hnd : L.Nodup) (h : List.Sublist [x, x] L) : False := by
  have hc := h.count_le x
  simp at hc
  have := List.nodup_iff_count_le_one.mp hnd x
  omega

/-- Claim C6 (amended): the extractor discards tokens of length at most 3,
purely numeric tokens and stopwords; the returned list reads off, in order,
the stable count-descending sort of the counter items (which are listed in
first-occurrence key order), truncated to `n`; that sort is frequency
descending, keeps every correctly-ordered pair of items in its
first-occurrence order (stability), and places equal-count items in
first-occurrence order (the tie-break), so the ranking is deterministic; on
the scenario input `the cat sat sat sat on on on a mat` every token
(including `sat`, `cat`, `mat`) has length at most 3, so the result is
empty. -/
theorem keywords_filter_and_rank (p : String) (n : Nat) :
    (∀ w ∈ local_single_word_keywords p n,
      3 < w.toList.length ∧ w ∉ STOPWORDS ∧
      ∃ t0 : List Char, w.toList = t0.map Char.toLower ∧ ¬ t0.all Char.isDigit = true) ∧
    List.Pairwise
      (fun a b => (kwTokens p).count b.toList ≤ (kwTokens p).count a.toList)
      (local_single_word_keywords p n) ∧
    local_single_word_keywords p n =
      ((sortDesc (kwItems p)).take n).map (fun q => q.1.asString) ∧
    (∀ x y : List Char × Nat, List.Sublist [x, y] (kwItems p) → y.2 ≤ x.2 →
      List.Sublist [x, y] (sortDesc (kwItems p))) ∧
    (∀ x y : List Char × Nat, List.Sublist [x, y] (sortDesc (kwItems p)) →
      x.2 = y.2 → List.Sublist [x, y] (kwItems p)) ∧
    local_single_word_keywords "the cat sat sat sat on on on a mat" 5 = [] := by
  refine ⟨?_, ?_, ?_, ?_, ?_, by decide⟩
  · intro w hw
    unfold local_single_word_keywords at hw
    by_cases hkt : kwTokens p = []
    · simp [hkt] at hw
    · simp only [if_neg hkt] at hw
      have hw1 := List.mem_of_mem_take hw
      rcases List.mem_map.mp hw1 with ⟨q, hq, rfl⟩
      have hq1 : q ∈ sortDesc (kwItems p) := List.mem_of_mem_take hq
      have hq2 : q ∈ kwItems p :=
        ((List.perm_insertionSort rankRel (kwItems p)).mem_iff).mp hq1
      obtain ⟨hkmem, hkstop⟩ := kwItems_key hq2
      unfold kwTokens at hkmem
      rcases List.mem_map.mp hkmem with ⟨t0, ht0, hkeq⟩
      rcases List.mem_filter.mp ht0 with ⟨_, hprops⟩
      rw [Bool.and_eq_true] at hprops
      obtain ⟨hlen, hdig⟩ := hprops
      refine ⟨?_, ?_, t0, ?_, ?_⟩
      · show 3 < (q.1.asString).toList.length
        have hq1l : (q.1.asString).toList = q.1 := rfl
        rw [hq1l, ← hkeq, List.length_map]
        simpa using hlen
      · intro hmem
        have hcon : STOPWORDS.contains (q.1.asString) = true := List.elem_iff.mpr hmem
        rw [hcon] at hkstop
        simp at hkstop
      · show (q.1.asString).toList = t0.map Char.toLower
        exact hkeq.symm
      · intro hall
        rw [hall] at hdig
        simp at hdig
  · unfold local_single_word_keywords
    by_cases hkt : kwTokens p = []
    · simp [hkt]
    · simp only [if_neg hkt]
      have hs : List.Sorted rankRel (sortDesc (kwItems p)) :=
        List.sorted_insertionSort rankRel (kwItems p)
      have h1 : List.Pairwise rankRel ((sortDesc (kwItems p)).take n) :=
        hs.sublist (List.take_sublist n _)
      have h2 : List.Pairwise
          (fun a b : List Char × Nat =>
            (kwTokens p).count b.1 ≤ (kwTokens p).count a.1)
          ((sortDesc (kwItems p)).take n) := by
        refine h1.imp_of_mem ?_
        intro a b ha hb hr
        have ha1 : a ∈ kwItems p :=
          ((List.perm_insertionSort rankRel (kwItems p)).mem_iff).mp
            (List.mem_of_mem_take ha)
        have hb1 : b ∈ kwItems p :=
          ((List.perm_insertionSort rankRel (kwItems p)).mem_iff).mp
            (List.mem_of_mem_take hb)
        rw [← kwItems_snd ha1, ← kwItems_snd hb1]
        exact hr
      have h3 : List.Pairwise
          (fun a b : String =>
            (kwTokens p).count b.toList ≤ (kwTokens p).count a.toList)
          (((sortDesc (kwItems p)).take n).map (fun q => q.1.asString)) := by
        rw [List.pairwise_map]
        exact h2
      exact h3.sublist (List.take_sublist n _)
  · simp only [local_single_word_keywords]
    by_cases hkt : kwTokens p = []
    · rw [if_pos hkt]
      have hki : kwItems p = [] := by
        rw [kwItems, hkt]
        rfl
      rw [hki, show sortDesc ([] : List (List Char × Nat)) = [] from rfl,
        List.take_nil]
      rfl
    · rw [if_neg hkt]
      have hlen : (((sortDesc (kwItems p)).take n).map
          (fun q : List Char × Nat => q.1.asString)).length ≤ n := by
        rw [List.length_map, List.length_take]
        exact Nat.min_le_left _ _
      rw [List.take_of_length_le hlen]
  · intro x y hxy hle
    exact insertionSort_pair_stable rankRel hxy hle
  · intro x y hsd heq
    have hperm := List.perm_insertionSort rankRel (kwItems p)
    have hnds : (sortDesc (kwItems p)).Nodup :=
      hperm.nodup_iff.mpr (kwItems_nodup p)
    by_cases hxy : x = y
    · exfalso
      exact not_pair_self_sublist hnds (hxy ▸ hsd)
    · have hx : x ∈ kwItems p := hperm.mem_iff.mp (hsd.subset (by simp))
      have hy : y ∈ kwItems p := hperm.mem_iff.mp (hsd.subset (by simp))
      rcases pair_sublist_of_mem hx hy hxy with h | h
      · exact h
      · exfalso
        have h2 : List.Sublist [y, x] (sortDesc (kwItems p)) :=
          insertionSort_pair_stable rankRel h (le_of_eq heq)
        exact hxy (pair_sublist_antisymm hnds hsd h2)

/-- Witness for `keywords_filter_and_rank`: the filter clauses at a concrete
page text and member, and the stability clause at a page with an exact
frequency tie (`alpha` and `beta` both occur twice; `alpha` occurs first and
is proved to stay first in the ranked items). -/
theorem keywords_filter_and_rank_witness :
    ("photosynthesis" ∈ local_single_word_keywords
      "photosynthesis occurs in chloroplasts with chlorophyll photosynthesis" 10 ∧
    3 < ("photosynthesis" : String).toList.length ∧
    "photosynthesis" ∉ STOPWORDS) ∧
    List.Sublist [(("alpha" : String).toList, 2), (("beta" : String).toList, 2)]
      (sortDesc (kwItems "alpha alpha beta beta gamma")) := by
  have h := (keywords_filter_and_rank
    "photosynthesis occurs in chloroplasts with chlorophyll photosynthesis" 10).1
    "photosynthesis" (by decide)
  have h2 := (keywords_filter_and_rank "alpha alpha beta beta gamma" 3).2.2.2.1
    (("alpha" : String).toList, 2) (("beta" : String).toList, 2)
    (by decide) (by decide)
  exact ⟨⟨by decide, h.1, h.2.1⟩, h2⟩

/-! ## Claim C10: the parse path touches only the lyrics field -/

/-- `upsert` leaves every other key unchanged. -/
theorem getKey_upsert_ne (kvs : List (String × Json)) (k k' : String) (v : Json)
    (h : k' ≠ k) : getKey (upsert kvs k v) k' = getKey kvs k' := by
  induction kvs with
  | nil =>
    have h2 : ¬ k = k' := fun he => h he.symm
    simp [upsert, getKey, h2]
  | cons p t ih =>
    obtain ⟨k1, v1⟩ := p
    by_cases hk : k1 = k
    · subst hk
      have h2 : ¬ k1 = k' := fun he => h (he.symm)
      simp [upsert, getKey, h2]
    · by_cases hk2 : k1 = k'
      · subst hk2
        simp [upsert, hk, getKey]
      · simp [upsert, hk, getKey, hk2, ih]

/-- `upsert` stores its value at its key. -/
theorem getKey_upsert_self (kvs : List (String × Json)) (k : String) (v : Json) :
    getKey (upsert kvs k v) k = some v := by
  induction kvs with
  | nil => simp [upsert, getKey]
  | cons p t ih =>
    obtain ⟨k1, v1⟩ := p
    by_cases hk : k1 = k
    · subst hk; simp [upsert, getKey]
    · simp [upsert, hk, getKey, ih]

/-- A successful song post-processing writes only the `lyrics` key. -/
theorem postprocessSong_eq_upsert (kvs kvs1 : List (String × Json))
    (h : postprocessSong kvs = some kvs1) :
    ∃ v, kvs1 = upsert kvs "lyrics" v := by
  unfold postprocessSong at h
  cases hg : getKey kvs "lyrics" with
  | none =>
    rw [hg] at h
    exact ⟨_, (Option.some.inj h).symm⟩
  | some val =>
    rw [hg] at h
    cases val with
    | null => exact ⟨_, (Option.some.inj h).symm⟩
    | str t => exact ⟨_, (Option.some.inj h).symm⟩
    | bool b =>
      cases b with
      | false => exact ⟨_, (Option.some.inj h).symm⟩
      | true => simp at h
    | num lex =>
      have h2 : (if numIsZeroLex lex = true then
          some (upsert kvs "lyrics" (Json.num lex)) else none) = some kvs1 := h
      by_cases hz : numIsZeroLex lex = true
      · rw [if_pos hz] at h2
        exact ⟨_, (Option.some.inj h2).symm⟩
      · rw [if_neg hz] at h2
        simp at h2
    | arr xs =>
      have h2 : (if xs.isEmpty = true then
          some (upsert kvs "lyrics" (Json.arr xs)) else none) = some kvs1 := h
      by_cases hz : xs.isEmpty = true
      · rw [if_pos hz] at h2
        exact ⟨_, (Option.some.inj h2).symm⟩
      · rw [if_neg hz] at h2
        simp at h2
    | obj o =>
      have h2 : (if o.isEmpty = true then
          some (upsert kvs "lyrics" (Json.obj o)) else none) = some kvs1 := h
      by_cases hz : o.isEmpty = true
      · rw [if_pos hz] at h2
        exact ⟨_, (Option.some.inj h2).symm⟩
      · rw [if_neg hz] at h2
        simp at h2

/-- A successful song post-processing keeps every non-lyrics field. -/
theorem postprocessSong_frame (kvs kvs1 : List (String × Json))
    (h : postprocessSong kvs = some kvs1) (k : String) (hk : k ≠ "lyrics") :
    getKey kvs1 k = getKey kvs k := by
  obtain ⟨v, rfl⟩ := postprocessSong_eq_upsert kvs kvs1 h
  exact getKey_upsert_ne kvs "lyrics" k v hk

/-- String lyrics are replaced by their sanitized form. -/
theorem postprocessSong_lyrics_str (kvs kvs1 : List (String × Json)) (t : String)
    (h : postprocessSong kvs = some kvs1)
    (hl : getKey kvs "lyrics" = some (Json.str t)) :
    getKey kvs1 "lyrics" = some (Json.str (clean_lyrics t)) := by
  unfold postprocessSong at h
  rw [hl] at h
  rw [← Option.some.inj h]
  exact getKey_upsert_self kvs "lyrics" (Json.str (clean_lyrics t))

/-- Pointwise description of a successful `postprocessSongs` run. -/
theorem postprocessSongs_spec (songs songs1 : List Json)
    (h : postprocessSongs songs = some songs1) :
    songs1.length = songs.length ∧
    ∀ (i : Nat) (kvsi : List (String × Json)), songs[i]? = some (Json.obj kvsi) →
      ∃ kvsi1, songs1[i]? = some (Json.obj kvsi1) ∧ postprocessSong kvsi = some kvsi1 := by
  induction songs generalizing songs1 with
  | nil =>
    unfold postprocessSongs at h
    refine ⟨by rw [← Option.some.inj h], ?_⟩
    intro i kvsi hi
    simp at hi
  | cons s t ih =>
    cases s with
    | obj kvs0 =>
      unfold postprocessSongs at h
      cases h1 : postprocessSong kvs0 with
      | none => rw [h1] at h; simp at h
      | some kvs1h =>
        rw [h1] at h
        cases h2 : postprocessSongs t with
        | none => rw [h2] at h; simp at h
        | some t1 =>
          rw [h2] at h
          obtain ⟨hl, hp⟩ := ih t1 h2
          refine ⟨?_, ?_⟩
          · rw [← Option.some.inj h]
            simp [hl]
          · intro i kvsi hi
            rw [← Option.some.inj h]
            cases i with
            | zero =>
              simp at hi
              subst hi
              exact ⟨kvs1h, by simp, h1⟩
            | succ j =>
              simp only [List.getElem?_cons_succ] at hi ⊢
              exact hp j kvsi hi
    | null => unfold postprocessSongs at h; simp at h
    | bool b => unfold postprocessSongs at h; simp at h
    | num n => unfold postprocessSongs at h; simp at h
    | str s => unfold postprocessSongs at h; simp at h
    | arr a => unfold postprocessSongs at h; simp at h

/-- On the validated parse path `generate_songs` returns the parsed dict with
its `songs` entry replaced by the post-processed list. -/
theorem generate_songs_parse_path_eq
    (textC raw : String) (styles : List String) (kvs : List (String × Json))
    (songs songs1 : List Json)
    (hp : try_parse_json (fenceCleaned raw) = some (Json.obj kvs))
    (hne : kvs.isEmpty = false)
    (hs : getKey kvs "songs" = some (Json.arr songs))
    (hpp : postprocessSongs songs = some songs1) :
    generate_songs textC (some raw) styles =
      Except.ok (some (Json.obj (upsert kvs "songs" (Json.arr songs1)))) := by
  unfold generate_songs
  simp only [hp, hs, hpp]
  simp [hne]

/-- Claim C10: on the validated parse path, `generate_songs` returns the
parsed dict with only its `songs` entry rewritten; every song keeps all of
its fields other than `lyrics` exactly as parsed (in particular `type`,
`title` and `vibe_description`), and a string `lyrics` value is replaced by
its sanitized form. -/
theorem parse_path_modifies_only_lyrics
    (textC raw : String) (styles : List String) (kvs : List (String × Json))
    (songs songs1 : List Json)
    (hp : try_parse_json (fenceCleaned raw) = some (Json.obj kvs))
    (hne : kvs.isEmpty = false)
    (hs : getKey kvs "songs" = some (Json.arr songs))
    (hpp : postprocessSongs songs = some songs1) :
    generate_songs textC (some raw) styles =
      Except.ok (some (Json.obj (upsert kvs "songs" (Json.arr songs1)))) ∧
    (∀ k, k ≠ "songs" → getKey (upsert kvs "songs" (Json.arr songs1)) k = getKey kvs k) ∧
    songs1.length = songs.length ∧
    (∀ (i : Nat) (kvsi : List (String × Json)), songs[i]? = some (Json.obj kvsi) →
      ∃ kvsi1, songs1[i]? = some (Json.obj kvsi1) ∧
        (∀ k, k ≠ "lyrics" → getKey kvsi1 k = getKey kvsi k) ∧
        (∀ t, getKey kvsi "lyrics" = some (Json.str t) →
          getKey kvsi1 "lyrics" = some (Json.str (clean_lyrics t)))) := by
  obtain ⟨hlen, hpt⟩ := postprocessSongs_spec songs songs1 hpp
  refine ⟨generate_songs_parse_path_eq textC raw styles kvs songs songs1 hp hne hs hpp,
    ?_, hlen, ?_⟩
  · intro k hk
    exact getKey_upsert_ne kvs "songs" k (Json.arr songs1) hk
  · intro i kvsi hi
    obtain ⟨kvsi1, hi1, hpi⟩ := hpt i kvsi hi
    exact ⟨kvsi1, hi1,
      fun k hk => postprocessSong_frame kvsi kvsi1 hpi k hk,
      fun t ht => postprocessSong_lyrics_str kvsi kvsi1 t hpi ht⟩

/-- Witness for `parse_path_modifies_only_lyrics` at the clean structured
scenario output of the specification. -/
theorem parse_path_modifies_only_lyrics_witness :
    generate_songs "chapter"
      (some "\x7b\"songs\":[\x7b\"type\":\"Trap\",\"title\":\"X\",\"vibe_description\":\"Y\",\"lyrics\":\"la la\"\x7d]\x7d")
      ["Desi Hip-Hop / Trap"] =
      Except.ok (some (Json.obj [("songs", Json.arr [Json.obj
        [("type", Json.str "Trap"), ("title", Json.str "X"),
         ("vibe_description", Json.str "Y"),
         ("lyrics", Json.str "la la")]])])) := by
  have h := (parse_path_modifies_only_lyrics "chapter"
    "\x7b\"songs\":[\x7b\"type\":\"Trap\",\"title\":\"X\",\"vibe_description\":\"Y\",\"lyrics\":\"la la\"\x7d]\x7d"
    ["Desi Hip-Hop / Trap"]
    [("songs", Json.arr [Json.obj
      [("type", Json.str "Trap"), ("title", Json.str "X"),
       ("vibe_description", Json.str "Y"), ("lyrics", Json.str "la la")]])]
    [Json.obj [("type", Json.str "Trap"), ("title", Json.str "X"),
      ("vibe_description", Json.str "Y"), ("lyrics", Json.str "la la")]]
    [Json.obj [("type", Json.str "Trap"), ("title", Json.str "X"),
      ("vibe_description", Json.str "Y"), ("lyrics", Json.str "la la")]]
    rfl rfl rfl rfl).1
  exact h.trans rfl

/-! ## Claim C8: brace-window recovery of embedded JSON -/

/-- `findOcc` of a single absent character walks past a prefix. -/
theorem findOcc_single_append {c : Char} {a r : List Char} (ha : c ∉ a) :
    findOcc [c] (a ++ c :: r) = some a.length := by
  induction a with
  | nil => simp [findOcc, List.isPrefixOf]
  | cons x xs ih =>
    have hx : x ≠ c := fun he => ha (he ▸ List.mem_cons_self x xs)
    have hxs : c ∉ xs := fun hm => ha (List.mem_cons_of_mem x hm)
    have hpre : ([c].isPrefixOf (x :: (xs ++ c :: r))) = false := by
      simp [List.isPrefixOf, BEq.beq]
      intro he
      exact absurd he.symm hx
    simp [List.cons_append, findOcc, hpre, ih hxs]

/-- `try_parse_json` recovers an embedded object from prose whose prefix has
no opening brace and whose suffix has no closing brace when the strict parse
fails. -/
theorem try_parse_json_recovers
    (s : String) (a b mid : List Char) (v : Json)
    (hsplit : s.toList = a ++ (lbrace :: (mid ++ [rbrace])) ++ b)
    (ha : lbrace ∉ a) (hb : rbrace ∉ b)
    (hstrict : jsonParse s = none)
    (hj : jsonParse ((lbrace :: (mid ++ [rbrace])).asString) = some v) :
    try_parse_json s = some v := by
  have hnonempty : ¬ s = "" := by
    intro he
    rw [he] at hsplit
    simp at hsplit
  have hfind : findCharIdx lbrace s.toList = some a.length := by
    unfold findCharIdx
    rw [hsplit]
    have hform : a ++ (lbrace :: (mid ++ [rbrace])) ++ b =
        a ++ lbrace :: ((mid ++ [rbrace]) ++ b) := by
      simp [List.append_assoc]
    rw [hform]
    exact findOcc_single_append ha
  have hrfind : rfindCharIdx rbrace s.toList = some (a.length + mid.length + 1) := by
    unfold rfindCharIdx
    have hrev : s.toList.reverse =
        b.reverse ++ rbrace :: (mid.reverse ++ (lbrace :: a.reverse)) := by
      rw [hsplit]
      simp [List.reverse_append]
    rw [hrev]
    have hbrev : rbrace ∉ b.reverse := by
      intro hm
      exact hb (List.mem_reverse.mp hm)
    rw [findOcc_single_append hbrev]
    have hlen : s.toList.length = a.length + mid.length + 2 + b.length := by
      rw [hsplit]
      simp
      omega
    simp only [Option.some.injEq]
    rw [List.length_reverse]
    omega
  have hslice : ((s.toList.drop a.length).take (a.length + mid.length + 1 + 1 - a.length)) =
      lbrace :: (mid ++ [rbrace]) := by
    rw [hsplit]
    have hform : a ++ (lbrace :: (mid ++ [rbrace])) ++ b =
        a ++ ((lbrace :: (mid ++ [rbrace])) ++ b) := by
      simp [List.append_assoc]
    rw [hform, List.drop_left]
    have harith : a.length + mid.length + 1 + 1 - a.length = mid.length + 2 := by omega
    rw [harith]
    have hxlen : (lbrace :: (mid ++ [rbrace])).length = mid.length + 2 := by simp
    rw [List.take_left' hxlen]
  unfold try_parse_json
  rw [if_neg hnonempty, hstrict]
  simp only [hfind, hrfind]
  have hlt : a.length < a.length + mid.length + 1 := by omega
  rw [if_pos hlt, hslice]
  exact hj

/-- Claim C8: when the fence-cleaned raw output fails strict parsing but
consists of brace-free prose around a JSON object, the first-to-last-brace
retry parses the embedded object, and `generate_songs` returns exactly its
songs (post-processed). -/
theorem embedded_json_recovered
    (textC raw : String) (styles : List String)
    (a b mid : List Char) (kvs : List (String × Json))
    (songs songs1 : List Json)
    (hsplit : (fenceCleaned raw).toList = a ++ (lbrace :: (mid ++ [rbrace])) ++ b)
    (ha : lbrace ∉ a) (hb : rbrace ∉ b)
    (hstrict : jsonParse (fenceCleaned raw) = none)
    (hj : jsonParse ((lbrace :: (mid ++ [rbrace])).asString) = some (Json.obj kvs))
    (hne : kvs.isEmpty = false)
    (hs : getKey kvs "songs" = some (Json.arr songs))
    (hpp : postprocessSongs songs = some songs1) :
    generate_songs textC (some raw) styles =
      Except.ok (some (Json.obj (upsert kvs "songs" (Json.arr songs1)))) := by
  have htp : try_parse_json (fenceCleaned raw) = some (Json.obj kvs) :=
    try_parse_json_recovers (fenceCleaned raw) a b mid (Json.obj kvs)
      hsplit ha hb hstrict hj
  exact generate_songs_parse_path_eq textC raw styles kvs songs songs1 htp hne hs hpp

set_option maxRecDepth 4000 in
/-- Witness for `embedded_json_recovered`: the specification scenario of a
songs object wrapped in prose and markdown fences. -/
theorem embedded_json_recovered_witness :
    generate_songs "chapter"
      (some "Sure! Here you go:\n```json\n\x7b\"songs\":[\x7b\"type\":\"Trap\",\"title\":\"X\",\"vibe_description\":\"Y\",\"lyrics\":\"la la\"\x7d]\x7d\n```\nHope it helps!")
      ["Lofi Study Beats"] =
      Except.ok (some (Json.obj [("songs", Json.arr [Json.obj
        [("type", Json.str "Trap"), ("title", Json.str "X"),
         ("vibe_description", Json.str "Y"),
         ("lyrics", Json.str "la la")]])])) := by
  have h := embedded_json_recovered "chapter"
    "Sure! Here you go:\n```json\n\x7b\"songs\":[\x7b\"type\":\"Trap\",\"title\":\"X\",\"vibe_description\":\"Y\",\"lyrics\":\"la la\"\x7d]\x7d\n```\nHope it helps!"
    ["Lofi Study Beats"]
    ("Sure! Here you go:\n\n".toList)
    ("\n\nHope it helps!".toList)
    ("\"songs\":[\x7b\"type\":\"Trap\",\"title\":\"X\",\"vibe_description\":\"Y\",\"lyrics\":\"la la\"\x7d]".toList)
    [("songs", Json.arr [Json.obj
      [("type", Json.str "Trap"), ("title", Json.str "X"),
       ("vibe_description", Json.str "Y"), ("lyrics", Json.str "la la")]])]
    [Json.obj [("type", Json.str "Trap"), ("title", Json.str "X"),
      ("vibe_description", Json.str "Y"), ("lyrics", Json.str "la la")]]
    [Json.obj [("type", Json.str "Trap"), ("title", Json.str "X"),
      ("vibe_description", Json.str "Y"), ("lyrics", Json.str "la la")]]
    (by decide) (by decide) (by decide) rfl rfl rfl rfl rfl
  exact h.trans rfl

/-! ## Claim C7: formula redaction -/

/-- A failed single-character search means the character is absent. -/
theorem findOcc_single_none {c : Char} {l : List Char}
    (h : findOcc [c] l = none) : c ∉ l := by
  induction l with
  | nil => simp
  | cons x xs ih =>
    intro hm
    unfold findOcc at h
    by_cases hp : ([c].isPrefixOf (x :: xs)) = true
    · rw [if_pos hp] at h
      simp at h
    · rw [if_neg hp] at h
      have h2 : findOcc [c] xs = none := by
        cases hfo : findOcc [c] xs with
        | none => rfl
        | some j => rw [hfo] at h; simp at h
      have hx : x ≠ c := by
        intro he
        subst he
        exact hp (by simp [List.isPrefixOf])
      rcases List.mem_cons.mp hm with he | hm2
      · exact hx he.symm
      · exact (ih h2) hm2

/-- The single-dollar rule is the identity on dollar-free text. -/
theorem subDF_no_dollar {fuel : Nat} {l : List Char} (h : '$' ∉ l) :
    subDF fuel l = l := by
  induction fuel generalizing l with
  | zero => rfl
  | succ fuel ih =>
    cases l with
    | nil => rfl
    | cons c cs =>
      have hc : ¬ c = '$' := fun he => h (he ▸ List.mem_cons_self c cs)
      have hcs : '$' ∉ cs := fun hm => h (List.mem_cons_of_mem c hm)
      simp [subDF, hc, ih hcs]

/-- After the single-dollar rule at most one dollar sign remains. -/
theorem subDF_count_le_one {fuel : Nat} {l : List Char} (h : l.length ≤ fuel) :
    (subDF fuel l).count '$' ≤ 1 := by
  induction fuel generalizing l with
  | zero =>
    have hz : l = [] := List.length_eq_zero.mp (Nat.le_zero.mp h)
    subst hz
    simp [subDF]
  | succ fuel ih =>
    cases l with
    | nil => simp [subDF]
    | cons c cs =>
      simp only [List.length_cons] at h
      by_cases hc : c = '$'
      · subst hc
        cases hfo : findOcc ['$'] cs with
        | some j =>
          have hlen : (cs.drop (j + 1)).length ≤ fuel := by
            simp only [List.length_drop]
            omega
          have hrec := ih hlen
          have h0 : fPlaceholder.count '$' = 0 := by decide
          simp [subDF, hfo, List.count_append, h0]
          exact hrec
        | none =>
          have hnod : '$' ∉ cs := findOcc_single_none hfo
          have hz : cs.count '$' = 0 := List.count_eq_zero.mpr hnod
          simp [subDF, hfo, subDF_no_dollar hnod, List.count_cons, hz]
      · have hlen : cs.length ≤ fuel := by omega
        have hrec := ih hlen
        simp [subDF, hc, List.count_cons, hrec]

/-- The operator-fragment rule introduces no dollar sign. -/
theorem opSubF_count (fuel : Nat) (l : List Char) :
    (opSubF fuel l).count '$' ≤ l.count '$' := by
  induction fuel generalizing l with
  | zero => exact le_refl _
  | succ fuel ih =>
    cases l with
    | nil => simp [opSubF]
    | cons c cs =>
      cases hm : opMatchHere (c :: cs) with
      | some abc =>
        obtain ⟨a, b, cc⟩ := abc
        simp only [opSubF, hm, List.count_append]
        have hrec := ih ((c :: cs).drop (max 1 (a + b + cc)))
        have hdrop : ((c :: cs).drop (max 1 (a + b + cc))).count '$' ≤
            (c :: cs).count '$' :=
          (List.drop_sublist _ _).count_le '$'
        by_cases h12 : 12 < a + b + cc
        · rw [if_pos h12]
          have h0 : fPlaceholder.count '$' = 0 := by decide
          omega
        · rw [if_neg h12]
          have hsplit : ((c :: cs).take (max 1 (a + b + cc))).count '$' +
              ((c :: cs).drop (max 1 (a + b + cc))).count '$' = (c :: cs).count '$' := by
            rw [← List.count_append, List.take_append_drop]
          omega
      | none =>
        simp only [opSubF, hm, List.count_cons]
        have hrec := ih cs
        by_cases hcd : c = '$' <;> simp [hcd] <;> omega

/-- The long-number rule introduces no dollar sign. -/
theorem subLongNumF_count (fuel : Nat) (prev : Bool) (l : List Char) :
    (subLongNumF fuel prev l).count '$' ≤ l.count '$' := by
  induction fuel generalizing prev l with
  | zero => exact le_refl _
  | succ fuel ih =>
    cases l with
    | nil => simp [subLongNumF]
    | cons c cs =>
      have hsplit : (cs.takeWhile Char.isDigit).count '$' +
          (cs.dropWhile Char.isDigit).count '$' = cs.count '$' := by
        rw [← List.count_append, List.takeWhile_append_dropWhile]
      by_cases hd : (!prev && c.isDigit) = true
      · simp only [subLongNumF, hd, if_true]
        have hrec := ih true (cs.dropWhile Char.isDigit)
        split
        · rw [List.count_append]
          simp only [List.count_cons]
          have h0 : nPlaceholder.count '$' = 0 := by decide
          omega
        · rw [List.count_append]
          simp only [List.count_cons]
          by_cases hcd : c = '$'
          · subst hcd
            simp
            omega
          · simp [hcd]
            omega
      · simp only [subLongNumF, hd, Bool.false_eq_true, if_false, List.count_cons]
        have hrec := ih (isWordChar c) cs
        by_cases hcd : c = '$'
        · subst hcd
          simp
          omega
        · simp [hcd]
          omega

/-- The numeric-cap replacement introduces no dollar sign. -/
theorem capF_count (fuel k : Nat) (prev : Bool) (l : List Char) :
    (capF fuel k prev l).count '$' ≤ l.count '$' := by
  induction fuel generalizing k prev l with
  | zero => exact le_refl _
  | succ fuel ih =>
    cases l with
    | nil => simp [capF]
    | cons c cs =>
      have hsplit : (cs.takeWhile Char.isDigit).count '$' +
          (cs.dropWhile Char.isDigit).count '$' = cs.count '$' := by
        rw [← List.count_append, List.takeWhile_append_dropWhile]
      by_cases hd : (!prev && c.isDigit) = true
      · simp only [capF, hd, if_true]
        split
        · split
          · rw [List.count_append]
            simp only [List.count_cons]
            have hrec := ih (k + 1) true (cs.dropWhile Char.isDigit)
            omega
          · rw [List.count_append]
            simp only [List.count_cons]
            have h0 : nPlaceholder.count '$' = 0 := by decide
            have hrec := ih k true (cs.dropWhile Char.isDigit)
            omega
        · rw [List.count_append]
          simp only [List.count_cons]
          have hrec := ih k true (cs.dropWhile Char.isDigit)
          omega
      · simp only [capF, hd, Bool.false_eq_true, if_false, List.count_cons]
        have hrec := ih k (isWordChar c) cs
        omega

/-- The numeric-cap stage introduces no dollar sign. -/
theorem capStage_count (l : List Char) : (capStage l).count '$' ≤ l.count '$' := by
  unfold capStage
  split
  · exact capF_count l.length 0 false l
  · exact le_refl _

/-- The formula-placeholder collapse introduces no dollar sign. -/
theorem collapseFF_count (fuel : Nat) (l : List Char) :
    (collapseFF fuel l).count '$' ≤ l.count '$' := by
  induction fuel generalizing l with
  | zero => exact le_refl _
  | succ fuel ih =>
    cases l with
    | nil => simp [collapseFF]
    | cons c cs =>
      simp only [collapseFF]
      split
      · rw [List.count_append]
        have h0 : (("[formula] " : String).toList).count '$' = 0 := by decide
        have hrec := ih ((c :: cs).drop (max 1 (parseRepsFF (c :: cs).length (c :: cs)).2))
        have hdrop : ((c :: cs).drop
            (max 1 (parseRepsFF (c :: cs).length (c :: cs)).2)).count '$' ≤
            (c :: cs).count '$' :=
          (List.drop_sublist _ _).count_le '$'
        omega
      · simp only [List.count_cons]
        have hrec := ih cs
        omega

/-- The numeric-placeholder collapse introduces no dollar sign. -/
theorem collapseNF_count (fuel : Nat) (l : List Char) :
    (collapseNF fuel l).count '$' ≤ l.count '$' := by
  induction fuel generalizing l with
  | zero => exact le_refl _
  | succ fuel ih =>
    cases l with
    | nil => simp [collapseNF]
    | cons c cs =>
      simp only [collapseNF]
      split
      · rw [List.count_append]
        have h0 : (("[num] " : String).toList).count '$' = 0 := by decide
        have hrec := ih ((c :: cs).drop (max 1 (parseRepsNF (c :: cs).length (c :: cs)).2))
        have hdrop : ((c :: cs).drop
            (max 1 (parseRepsNF (c :: cs).length (c :: cs)).2)).count '$' ≤
            (c :: cs).count '$' :=
          (List.drop_sublist _ _).count_le '$'
        omega
      · simp only [List.count_cons]
        have hrec := ih cs
        omega

/-- The newline collapse introduces no dollar sign. -/
theorem nlCollapseF_count (fuel : Nat) (l : List Char) :
    (nlCollapseF fuel l).count '$' ≤ l.count '$' := by
  induction fuel generalizing l with
  | zero => exact le_refl _
  | succ fuel ih =>
    cases l with
    | nil => simp [nlCollapseF]
    | cons c cs =>
      have hsplit : (cs.takeWhile (fun x => x = '\n')).count '$' +
          (cs.dropWhile (fun x => x = '\n')).count '$' = cs.count '$' := by
        rw [← List.count_append, List.takeWhile_append_dropWhile]
      by_cases hc : c = '\n'
      · subst hc
        simp only [nlCollapseF, if_pos rfl, if_true]
        have hrec := ih (cs.dropWhile (fun x => x = '\n'))
        rw [List.count_append]
        simp only [List.count_cons]
        have hpiece : (if 2 ≤ (cs.takeWhile (fun x => x = '\n')).length
            then (['\n', '\n'] : List Char)
            else '\n' :: cs.takeWhile (fun x => x = '\n')).count '$' ≤
            (cs.takeWhile (fun x => x = '\n')).count '$' := by
          split
          · simp
          · simp [List.count_cons]
        omega
      · simp only [nlCollapseF, if_neg hc, List.count_cons]
        have hrec := ih cs
        omega

/-- The horizontal-whitespace collapse introduces no dollar sign. -/
theorem hwsCollapseF_count (fuel : Nat) (l : List Char) :
    (hwsCollapseF fuel l).count '$' ≤ l.count '$' := by
  induction fuel generalizing l with
  | zero => exact le_refl _
  | succ fuel ih =>
    cases l with
    | nil => simp [hwsCollapseF]
    | cons c cs =>
      have hsplit : (cs.takeWhile isHws).count '$' +
          (cs.dropWhile isHws).count '$' = cs.count '$' := by
        rw [← List.count_append, List.takeWhile_append_dropWhile]
      by_cases hc : isHws c = true
      · simp only [hwsCollapseF, hc, if_true]
        have hrec := ih (cs.dropWhile isHws)
        rw [List.count_append]
        simp only [List.count_cons]
        have hpiece : (if 1 ≤ (cs.takeWhile isHws).length
            then ([' '] : List Char) else [c]).count '$' ≤
            (cs.takeWhile isHws).count '$' +
            (if (c == '$') = true then 1 else 0) := by
          split
          · simp
          · simp only [List.count_cons, List.count_nil]
            omega
        omega
      · simp only [hwsCollapseF, hc, Bool.false_eq_true, if_false, List.count_cons]
        have hrec := ih cs
        omega

/-- Stripping introduces no dollar sign. -/
theorem pyStrip_count (l : List Char) : (pyStrip l).count '$' ≤ l.count '$' := by
  unfold pyStrip
  calc (((l.dropWhile pyIsSpace).reverse.dropWhile pyIsSpace).reverse).count '$'
      = (((l.dropWhile pyIsSpace).reverse.dropWhile pyIsSpace)).count '$' := by
        rw [List.count_reverse]
    _ ≤ ((l.dropWhile pyIsSpace).reverse).count '$' :=
        (List.dropWhile_sublist _).count_le '$'
    _ = (l.dropWhile pyIsSpace).count '$' := by rw [List.count_reverse]
    _ ≤ l.count '$' := (List.dropWhile_sublist _).count_le '$'

/-- Round trip of `List.asString`. -/
theorem toList_asString (l : List Char) : (l.asString).toList = l := rfl

/-- Claim C7: the sanitizer replaces every dollar-delimited span: on
`$$x^2+y^2=z^2$$` the output is exactly the formula placeholder (so it
contains `[formula]` and not `x^2`), and in general at most one unmatched
dollar sign can survive `clean_lyrics` — every matched pair has been
replaced. -/
theorem formula_redaction :
    clean_lyrics "$$x^2+y^2=z^2$$" = "[formula]" ∧
    containsStr "[formula]" (clean_lyrics "$$x^2+y^2=z^2$$") = true ∧
    containsStr "x^2" (clean_lyrics "$$x^2+y^2=z^2$$") = false ∧
    ∀ s : String, ((clean_lyrics s).toList.count '$') ≤ 1 := by
  refine ⟨rfl, by decide, by decide, ?_⟩
  intro s
  by_cases hs : s = ""
  · subst hs
    decide
  · unfold clean_lyrics
    rw [if_neg hs]
    show ((cleanChars s.toList).asString).toList.count '$' ≤ 1
    rw [toList_asString]
    unfold cleanChars
    have h1 : (subD (subDD s.toList)).count '$' ≤ 1 := by
      unfold subD
      exact subDF_count_le_one (le_refl _)
    calc (pyStrip (hwsCollapse (nlCollapse (collapseN (collapseF (capStage
          (subLongNum (opSub (subD (subDD s.toList)))))))))).count '$'
        ≤ (hwsCollapse (nlCollapse (collapseN (collapseF (capStage
          (subLongNum (opSub (subD (subDD s.toList))))))))).count '$' := pyStrip_count _
      _ ≤ (nlCollapse (collapseN (collapseF (capStage
          (subLongNum (opSub (subD (subDD s.toList)))))))).count '$' :=
          hwsCollapseF_count _ _
      _ ≤ (collapseN (collapseF (capStage
          (subLongNum (opSub (subD (subDD s.toList))))))).count '$' :=
          nlCollapseF_count _ _
      _ ≤ (collapseF (capStage (subLongNum (opSub (subD (subDD s.toList)))))).count '$' :=
          collapseNF_count _ _
      _ ≤ (capStage (subLongNum (opSub (subD (subDD s.toList))))).count '$' :=
          collapseFF_count _ _
      _ ≤ (subLongNum (opSub (subD (subDD s.toList)))).count '$' := capStage_count _
      _ ≤ (opSub (subD (subDD s.toList))).count '$' := subLongNumF_count _ _ _
      _ ≤ (subD (subDD s.toList)).count '$' := opSubF_count _ _
      _ ≤ 1 := h1

/-! ## Claim C5: the numeric cap -/

/-- Members of a `takeWhile` satisfy the predicate. -/
theorem mem_takeWhile_digit {l : List Char} {x : Char}
    (h : x ∈ l.takeWhile Char.isDigit) : x.isDigit = true := by
  induction l with
  | nil => simp [List.takeWhile] at h
  | cons c cs ih =>
    by_cases hc : c.isDigit = true
    · rw [List.takeWhile_cons, if_pos hc] at h
      rcases List.mem_cons.mp h with he | hm
      · exact he ▸ hc
      · exact ih hm
    · rw [List.takeWhile_cons, if_neg hc] at h
      simp at h

/-- The head of a digit `dropWhile` is not a digit. -/
theorem dropWhile_headD_not (l : List Char) :
    ((l.dropWhile Char.isDigit).headD ' ').isDigit = false := by
  induction l with
  | nil => decide
  | cons c cs ih =>
    by_cases hc : c.isDigit = true
    · rw [List.dropWhile_cons, if_pos hc]
      exact ih
    · rw [List.dropWhile_cons, if_neg hc]
      simpa using Bool.eq_false_iff.mpr hc

/-- Splitting a digit run off an appended list. -/
theorem tw_app {ds out : List Char} (hds : ∀ x ∈ ds, x.isDigit = true)
    (hout : ((out.headD ' ').isDigit) = false) :
    (ds ++ out).takeWhile Char.isDigit = ds ∧
    (ds ++ out).dropWhile Char.isDigit = out := by
  induction ds with
  | nil =>
    cases out with
    | nil => simp
    | cons x xs =>
      have hx : x.isDigit = false := hout
      simp [List.takeWhile_cons, List.dropWhile_cons, hx]
  | cons d ds ih =>
    have hd := hds d (List.mem_cons_self d ds)
    have ih2 := ih (fun x hx => hds x (List.mem_cons_of_mem d hx))
    simp [List.takeWhile_cons, List.dropWhile_cons, hd, ih2.1, ih2.2]

/-- A digit is a word character. -/
theorem digit_isWordChar {c : Char} (h : c.isDigit = true) : isWordChar c = true := by
  simp [isWordChar, Char.isAlphanum, h]

/-- The token scan ignores the flag when no digit is at the head. -/
theorem numTokensW_flag (p q : Bool) (l : List Char)
    (h : ((l.headD ' ').isDigit) = false) : numTokensW p l = numTokensW q l := by
  cases l with
  | nil => simp [numTokensW]
  | cons c cs =>
    have hc : c.isDigit = false := h
    simp [numTokensW, hc]

/-- Scanning a standalone digit run with a valid right boundary yields the
run as a token. -/
theorem numTokensW_token (c : Char) (ds out : List Char)
    (hc : c.isDigit = true) (hds : ∀ x ∈ ds, x.isDigit = true)
    (hout : isWordChar (out.headD ' ') = false) :
    numTokensW false ((c :: ds) ++ out) = (c :: ds) :: numTokensW true out := by
  have houtd : (out.headD ' ').isDigit = false := by
    cases hd : (out.headD ' ').isDigit
    · rfl
    · rw [digit_isWordChar hd] at hout
      exact hout
  obtain ⟨htw, hdw⟩ := tw_app hds houtd
  cases out with
  | nil =>
    simp only [List.cons_append, numTokensW, hc, Bool.not_false, Bool.true_and,
      if_true, htw, hdw]
  | cons r rs =>
    have hrw : isWordChar r = false := hout
    simp only [List.cons_append, numTokensW, hc, Bool.not_false, Bool.true_and,
      if_true, htw, hdw, hrw]

/-- Scanning a digit run with an invalid right boundary yields no token. -/
theorem numTokensW_run_no_boundary (c : Char) (ds out : List Char)
    (hc : c.isDigit = true) (hds : ∀ x ∈ ds, x.isDigit = true)
    (hw : isWordChar (out.headD ' ') = true)
    (hd : ((out.headD ' ').isDigit) = false) :
    numTokensW false ((c :: ds) ++ out) = numTokensW true out := by
  obtain ⟨htw, hdw⟩ := tw_app hds hd
  cases out with
  | nil =>
    have h2 : isWordChar ' ' = false := by decide
    rw [List.headD_nil, h2] at hw
    exact absurd hw (by simp)
  | cons r rs =>
    have hrw : isWordChar r = true := hw
    simp only [List.cons_append, numTokensW, hc, Bool.not_false, Bool.true_and,
      if_true, htw, hdw, hrw]
    simp

/-- Scanning the numeric placeholder yields no token. -/
theorem numTokensW_placeholder (prev : Bool) (out : List Char)
    (hd : ((out.headD ' ').isDigit) = false) :
    numTokensW prev (nPlaceholder ++ out) = numTokensW true out := by
  have he : nPlaceholder ++ out = ' ' :: '[' :: 'n' :: 'u' :: 'm' :: ']' :: ' ' :: out := rfl
  rw [he]
  have h1 : (' ' : Char).isDigit = false := by decide
  have h2 : ('[' : Char).isDigit = false := by decide
  have h3 : ('n' : Char).isDigit = false := by decide
  have h4 : ('u' : Char).isDigit = false := by decide
  have h5 : ('m' : Char).isDigit = false := by decide
  have h6 : (']' : Char).isDigit = false := by decide
  simp only [numTokensW, h1, h2, h3, h4, h5, h6, Bool.and_false, Bool.false_eq_true,
    if_false]
  exact numTokensW_flag _ _ out hd

/-- `capW` keeps a non-digit head in place. -/
theorem capW_headD (k : Nat) (p : Bool) (r : List Char)
    (hr : ((r.headD ' ').isDigit) = false) :
    (capW k p r).headD ' ' = r.headD ' ' := by
  cases r with
  | nil => simp [capW]
  | cons x xs =>
    have hx : x.isDigit = false := hr
    simp [capW, hx]

/-- With enough fuel `numTokensF` agrees with its well-founded twin. -/
theorem numTokensF_eq_W : ∀ (fuel : Nat) (prev : Bool) (l : List Char),
    l.length ≤ fuel → numTokensF fuel prev l = numTokensW prev l := by
  intro fuel
  induction fuel with
  | zero =>
    intro prev l h
    have hl : l = [] := List.length_eq_zero.mp (Nat.le_zero.mp h)
    subst hl
    simp [numTokensF, numTokensW]
  | succ fuel ih =>
    intro prev l h
    cases l with
    | nil => simp [numTokensF, numTokensW]
    | cons c cs =>
      simp only [List.length_cons] at h
      have hcs : cs.length ≤ fuel := by omega
      have hrest : (cs.dropWhile Char.isDigit).length ≤ fuel := by
        have hle : (cs.dropWhile Char.isDigit).length ≤ cs.length :=
          (List.dropWhile_sublist Char.isDigit).length_le
        omega
      by_cases hd : (!prev && c.isDigit) = true
      · simp only [numTokensF, numTokensW, hd, if_true]
        split
        · rw [ih true _ hrest]
        · rw [ih true _ hrest]
      · simp only [numTokensF, numTokensW, hd, Bool.false_eq_true, if_false]
        exact ih (isWordChar c) cs hcs

/-- With enough fuel `capF` agrees with its well-founded twin. -/
theorem capF_eq_W : ∀ (fuel k : Nat) (prev : Bool) (l : List Char),
    l.length ≤ fuel → capF fuel k prev l = capW k prev l := by
  intro fuel
  induction fuel with
  | zero =>
    intro k prev l h
    have hl : l = [] := List.length_eq_zero.mp (Nat.le_zero.mp h)
    subst hl
    simp [capF, capW]
  | succ fuel ih =>
    intro k prev l h
    cases l with
    | nil => simp [capF, capW]
    | cons c cs =>
      simp only [List.length_cons] at h
      have hcs : cs.length ≤ fuel := by omega
      have hrest : (cs.dropWhile Char.isDigit).length ≤ fuel := by
        have hle : (cs.dropWhile Char.isDigit).length ≤ cs.length :=
          (List.dropWhile_sublist Char.isDigit).length_le
        omega
      by_cases hd : (!prev && c.isDigit) = true
      · simp only [capF, capW, hd, if_true]
        split
        · split
          · rw [ih (k + 1) true _ hrest]
          · rw [ih k true _ hrest]
        · rw [ih k true _ hrest]
      · simp only [capF, capW, hd, Bool.false_eq_true, if_false]
        rw [ih k (isWordChar c) cs hcs]

/-- With enough fuel `subLongNumF` agrees with its well-founded twin. -/
theorem subLongNumF_eq_W : ∀ (fuel : Nat) (prev : Bool) (l : List Char),
    l.length ≤ fuel → subLongNumF fuel prev l = subLongNumW prev l := by
  intro fuel
  induction fuel with
  | zero =>
    intro prev l h
    have hl : l = [] := List.length_eq_zero.mp (Nat.le_zero.mp h)
    subst hl
    simp [subLongNumF, subLongNumW]
  | succ fuel ih =>
    intro prev l h
    cases l with
    | nil => simp [subLongNumF, subLongNumW]
    | cons c cs =>
      simp only [List.length_cons] at h
      have hcs : cs.length ≤ fuel := by omega
      have hrest : (cs.dropWhile Char.isDigit).length ≤ fuel := by
        have hle : (cs.dropWhile Char.isDigit).length ≤ cs.length :=
          (List.dropWhile_sublist Char.isDigit).length_le
        omega
      by_cases hd : (!prev && c.isDigit) = true
      · simp only [subLongNumF, subLongNumW, hd, if_true]
        split
        · rw [ih true _ hrest]
        · rw [ih true _ hrest]
      · simp only [subLongNumF, subLongNumW, hd, Bool.false_eq_true, if_false]
        rw [ih (isWordChar c) cs hcs]

/-- `numTokens` through the well-founded twin. -/
theorem numTokens_eq_W (l : List Char) : numTokens l = numTokensW false l :=
  numTokensF_eq_W l.length false l (le_refl _)

/-- `subLongNum` through the well-founded twin. -/
theorem subLongNum_eq_W (l : List Char) : subLongNum l = subLongNumW false l :=
  subLongNumF_eq_W l.length false l (le_refl _)

/-- The counting replacement keeps exactly the first `6 - k` standalone
numeric tokens and redacts every later one. -/
theorem capW_tokens : ∀ (n : Nat) (l : List Char) (k : Nat) (prev : Bool),
    l.length ≤ n → k ≤ 6 →
    numTokensW prev (capW k prev l) = (numTokensW prev l).take (6 - k) := by
  intro n
  induction n with
  | zero =>
    intro l k prev h hk
    have hl : l = [] := List.length_eq_zero.mp (Nat.le_zero.mp h)
    subst hl
    simp [capW, numTokensW]
  | succ n ih =>
    intro l k prev h hk
    cases l with
    | nil => simp [capW, numTokensW]
    | cons c cs =>
      simp only [List.length_cons] at h
      have hcs : cs.length ≤ n := by omega
      have hrest_len : (cs.dropWhile Char.isDigit).length ≤ n := by
        have hle : (cs.dropWhile Char.isDigit).length ≤ cs.length :=
          (List.dropWhile_sublist Char.isDigit).length_le
        omega
      have hrestd : ((cs.dropWhile Char.isDigit).headD ' ').isDigit = false :=
        dropWhile_headD_not cs
      have hds : ∀ x ∈ cs.takeWhile Char.isDigit, x.isDigit = true :=
        fun x hx => mem_takeWhile_digit hx
      by_cases hd : (!prev && c.isDigit) = true
      · have hprev : prev = false := by
          cases prev
          · rfl
          · simp at hd
        have hcdig : c.isDigit = true := by
          cases hcd : c.isDigit
          · rw [hcd] at hd; simp at hd
          · rfl
        subst hprev
        by_cases hok : (match cs.dropWhile Char.isDigit with
            | [] => true
            | r :: _ => !isWordChar r) = true
        · have hw : isWordChar ((cs.dropWhile Char.isDigit).headD ' ') = false := by
            cases hr2 : cs.dropWhile Char.isDigit with
            | nil => decide
            | cons r rs =>
              rw [hr2] at hok
              have hok2 : (!isWordChar r) = true := hok
              simp only [List.headD_cons]
              simp at hok2
              simp [hok2]
          have hnum : numTokensW false (c :: cs) =
              (c :: cs.takeWhile Char.isDigit) ::
                numTokensW true (cs.dropWhile Char.isDigit) := by
            simp only [numTokensW]
            rw [if_pos hd, if_pos hok]
          by_cases hk6 : k < 6
          · have hcap : capW k false (c :: cs) =
                (c :: cs.takeWhile Char.isDigit) ++
                  capW (k + 1) true (cs.dropWhile Char.isDigit) := by
              simp only [capW]
              rw [if_pos hd, if_pos hok, if_pos hk6]
            have hout : isWordChar
                ((capW (k + 1) true (cs.dropWhile Char.isDigit)).headD ' ') = false := by
              rw [capW_headD _ _ _ hrestd]
              exact hw
            rw [hcap, hnum, numTokensW_token c _ _ hcdig hds hout]
            have h6k : 6 - k = (6 - (k + 1)) + 1 := by omega
            rw [h6k, List.take_succ_cons]
            rw [ih (cs.dropWhile Char.isDigit) (k + 1) true hrest_len (by omega)]
          · have hcap : capW k false (c :: cs) =
                nPlaceholder ++ capW k true (cs.dropWhile Char.isDigit) := by
              simp only [capW]
              rw [if_pos hd, if_pos hok, if_neg hk6]
            have hout : ((capW k true (cs.dropWhile Char.isDigit)).headD ' ').isDigit
                = false := by
              rw [capW_headD _ _ _ hrestd]
              exact hrestd
            rw [hcap, numTokensW_placeholder false _ hout]
            rw [ih (cs.dropWhile Char.isDigit) k true hrest_len hk]
            have h60 : 6 - k = 0 := by omega
            rw [hnum, h60]
            simp
        · have hw : isWordChar ((cs.dropWhile Char.isDigit).headD ' ') = true := by
            cases hr2 : cs.dropWhile Char.isDigit with
            | nil =>
              rw [hr2] at hok
              simp at hok
            | cons r rs =>
              rw [hr2] at hok
              have hok2 : ¬ ((!isWordChar r) = true) := hok
              simp only [List.headD_cons]
              simp at hok2
              simp [hok2]
          have hcap : capW k false (c :: cs) =
              (c :: cs.takeWhile Char.isDigit) ++
                capW k true (cs.dropWhile Char.isDigit) := by
            simp only [capW]
            rw [if_pos hd, if_neg hok]
          have hnum : numTokensW false (c :: cs) =
              numTokensW true (cs.dropWhile Char.isDigit) := by
            simp only [numTokensW]
            rw [if_pos hd, if_neg hok]
          have hout1 : isWordChar
              ((capW k true (cs.dropWhile Char.isDigit)).headD ' ') = true := by
            rw [capW_headD _ _ _ hrestd]
            exact hw
          have hout2 : ((capW k true (cs.dropWhile Char.isDigit)).headD ' ').isDigit
              = false := by
            rw [capW_headD _ _ _ hrestd]
            exact hrestd
          rw [hcap, numTokensW_run_no_boundary c _ _ hcdig hds hout1 hout2, hnum]
          exact ih (cs.dropWhile Char.isDigit) k true hrest_len hk
      · have hcap : capW k prev (c :: cs) = c :: capW k (isWordChar c) cs := by
          simp only [capW]
          rw [if_neg hd]
        have hnum1 : numTokensW prev (c :: capW k (isWordChar c) cs) =
            numTokensW (isWordChar c) (capW k (isWordChar c) cs) := by
          simp only [numTokensW]
          rw [if_neg hd]
        have hnum2 : numTokensW prev (c :: cs) = numTokensW (isWordChar c) cs := by
          simp only [numTokensW]
          rw [if_neg hd]
        rw [hcap, hnum1, hnum2]
        exact ih cs k (isWordChar c) hcs hk

/-- `subLongNumW` keeps a non-digit head in place. -/
theorem subLongNumW_headD (p : Bool) (r : List Char)
    (hr : ((r.headD ' ').isDigit) = false) :
    (subLongNumW p r).headD ' ' = r.headD ' ' := by
  cases r with
  | nil => simp [subLongNumW]
  | cons x xs =>
    have hx : x.isDigit = false := hr
    simp [subLongNumW, hx]

/-- After the long-number rule every standalone numeric token has at most 3
digits. -/
theorem subLongNumW_tokens_short : ∀ (n : Nat) (l : List Char) (prev : Bool),
    l.length ≤ n →
    ∀ t ∈ numTokensW prev (subLongNumW prev l), t.length ≤ 3 := by
  intro n
  induction n with
  | zero =>
    intro l prev h
    have hl : l = [] := List.length_eq_zero.mp (Nat.le_zero.mp h)
    subst hl
    simp [subLongNumW, numTokensW]
  | succ n ih =>
    intro l prev h
    cases l with
    | nil => simp [subLongNumW, numTokensW]
    | cons c cs =>
      simp only [List.length_cons] at h
      have hcs : cs.length ≤ n := by omega
      have hrest_len : (cs.dropWhile Char.isDigit).length ≤ n := by
        have hle : (cs.dropWhile Char.isDigit).length ≤ cs.length :=
          (List.dropWhile_sublist Char.isDigit).length_le
        omega
      have hrestd : ((cs.dropWhile Char.isDigit).headD ' ').isDigit = false :=
        dropWhile_headD_not cs
      have hds : ∀ x ∈ cs.takeWhile Char.isDigit, x.isDigit = true :=
        fun x hx => mem_takeWhile_digit hx
      by_cases hd : (!prev && c.isDigit) = true
      · have hprev : prev = false := by
          cases prev
          · rfl
          · simp at hd
        have hcdig : c.isDigit = true := by
          cases hcd : c.isDigit
          · rw [hcd] at hd; simp at hd
          · rfl
        subst hprev
        by_cases hlong : (4 ≤ (cs.takeWhile Char.isDigit).length + 1 &&
            (match cs.dropWhile Char.isDigit with
             | [] => true
             | r :: _ => !isWordChar r)) = true
        · have hcap : subLongNumW false (c :: cs) =
              nPlaceholder ++ subLongNumW true (cs.dropWhile Char.isDigit) := by
            simp only [subLongNumW]
            rw [if_pos hd, if_pos hlong]
          have hout : ((subLongNumW true (cs.dropWhile Char.isDigit)).headD ' ').isDigit
              = false := by
            rw [subLongNumW_headD _ _ hrestd]
            exact hrestd
          rw [hcap, numTokensW_placeholder false _ hout]
          exact ih (cs.dropWhile Char.isDigit) true hrest_len
        · have hcap : subLongNumW false (c :: cs) =
              (c :: cs.takeWhile Char.isDigit) ++
                subLongNumW true (cs.dropWhile Char.isDigit) := by
            simp only [subLongNumW]
            rw [if_pos hd, if_neg hlong]
          rw [hcap]
          by_cases hok : (match cs.dropWhile Char.isDigit with
              | [] => true
              | r :: _ => !isWordChar r) = true
          · have hw : isWordChar ((cs.dropWhile Char.isDigit).headD ' ') = false := by
              cases hr2 : cs.dropWhile Char.isDigit with
              | nil => decide
              | cons r rs =>
                rw [hr2] at hok
                have hok2 : (!isWordChar r) = true := hok
                simp only [List.headD_cons]
                simp at hok2
                simp [hok2]
            have hshort : (cs.takeWhile Char.isDigit).length + 1 ≤ 3 := by
              rw [Bool.and_eq_true] at hlong
              push_neg at hlong
              by_cases h4 : 4 ≤ (cs.takeWhile Char.isDigit).length + 1
              · exfalso
                apply hlong
                · simpa using h4
                · exact hok
              · omega
            have hout : isWordChar
                ((subLongNumW true (cs.dropWhile Char.isDigit)).headD ' ') = false := by
              rw [subLongNumW_headD _ _ hrestd]
              exact hw
            rw [numTokensW_token c _ _ hcdig hds hout]
            intro t ht
            rcases List.mem_cons.mp ht with he | hm
            · subst he
              simpa using hshort
            · exact ih (cs.dropWhile Char.isDigit) true hrest_len t hm
          · have hw : isWordChar ((cs.dropWhile Char.isDigit).headD ' ') = true := by
              cases hr2 : cs.dropWhile Char.isDigit with
              | nil =>
                rw [hr2] at hok
                simp at hok
              | cons r rs =>
                rw [hr2] at hok
                have hok2 : ¬ ((!isWordChar r) = true) := hok
                simp only [List.headD_cons]
                simp at hok2
                simp [hok2]
            have hout1 : isWordChar
                ((subLongNumW true (cs.dropWhile Char.isDigit)).headD ' ') = true := by
              rw [subLongNumW_headD _ _ hrestd]
              exact hw
            have hout2 : ((subLongNumW true (cs.dropWhile Char.isDigit)).headD ' ').isDigit
                = false := by
              rw [subLongNumW_headD _ _ hrestd]
              exact hrestd
            rw [numTokensW_run_no_boundary c _ _ hcdig hds hout1 hout2]
            exact ih (cs.dropWhile Char.isDigit) true hrest_len
      · have hcap : subLongNumW prev (c :: cs) =
            c :: subLongNumW (isWordChar c) cs := by
          simp only [subLongNumW]
          rw [if_neg hd]
        have hnum1 : numTokensW prev (c :: subLongNumW (isWordChar c) cs) =
            numTokensW (isWordChar c) (subLongNumW (isWordChar c) cs) := by
          simp only [numTokensW]
          rw [if_neg hd]
        rw [hcap, hnum1]
        exact ih cs (isWordChar c) hcs

/-- Claim C5 (amended): in the numeric stage of the sanitizer, every
standalone numeric token surviving the 4-digit rule has at most 3 digits, and
when more than 6 standalone numeric tokens remain after the 4-digit rule, the
cap keeps exactly the first 6 of those remaining tokens and redacts every
later one (so the kept tokens are the earliest 6 of the post-redaction text,
not of the original input). -/
theorem numeric_stage_cap (l : List Char) :
    (∀ t ∈ numTokens (capStage (subLongNum l)), t.length ≤ 3) ∧
    (6 < (numTokens (subLongNum l)).length →
      numTokens (capStage (subLongNum l)) = (numTokens (subLongNum l)).take 6) := by
  have hsw := subLongNum_eq_W l
  constructor
  · intro t ht
    unfold capStage at ht
    by_cases h6 : 6 < (numTokens (subLongNum l)).length
    · rw [if_pos h6] at ht
      rw [capF_eq_W _ _ _ _ (le_refl _)] at ht
      rw [numTokens_eq_W] at ht
      rw [hsw] at ht
      rw [capW_tokens (subLongNumW false l).length _ 0 false (le_refl _) (by omega)] at ht
      have ht2 := List.mem_of_mem_take ht
      exact subLongNumW_tokens_short l.length l false (le_refl _) t ht2
    · rw [if_neg h6] at ht
      rw [numTokens_eq_W, hsw] at ht
      exact subLongNumW_tokens_short l.length l false (le_refl _) t ht
  · intro h6
    unfold capStage
    rw [if_pos h6]
    rw [capF_eq_W _ _ _ _ (le_refl _)]
    rw [numTokens_eq_W, numTokens_eq_W, hsw]
    have hmain := capW_tokens (subLongNumW false l).length (subLongNumW false l) 0 false
      (le_refl _) (by omega)
    simpa using hmain

/-- Witness for `numeric_stage_cap` at eight short tokens. -/
theorem numeric_stage_cap_witness :
    6 < (numTokens (subLongNum ("1 2 3 4 5 6 7 8").toList)).length ∧
    numTokens (capStage (subLongNum ("1 2 3 4 5 6 7 8").toList)) =
      (numTokens (subLongNum ("1 2 3 4 5 6 7 8").toList)).take 6 :=
  ⟨by decide, (numeric_stage_cap ("1 2 3 4 5 6 7 8").toList).2 (by decide)⟩

/-! ## Claim C4: idempotence on redaction-free text -/

/-- The double-dollar rule is the identity on dollar-free text. -/
theorem subDDF_no_dollar {fuel : Nat} {l : List Char} (h : '$' ∉ l) :
    subDDF fuel l = l := by
  induction fuel generalizing l with
  | zero => rfl
  | succ fuel ih =>
    cases l with
    | nil => rfl
    | cons c cs =>
      have hc : ¬ c = '$' := fun he => h (he ▸ List.mem_cons_self c cs)
      have hcs : '$' ∉ cs := fun hm => h (List.mem_cons_of_mem c hm)
      simp [subDDF, hc, ih hcs]

/-- A positive operator run starts with an operator character. -/
theorem opRun_pos_head {l : List Char} (h : 1 ≤ opRun l) :
    ∃ c ∈ l, isOpChar c = true := by
  cases l with
  | nil => simp [opRun] at h
  | cons c cs =>
    by_cases hc : isOpChar c = true
    · exact ⟨c, List.mem_cons_self c cs, hc⟩
    · rw [opRun, if_neg (by simpa using hc)] at h
      omega

/-- No operator characters, no cluster anywhere. -/
theorem clusterAt_false_of_no_op {l : List Char} (h : ∀ c ∈ l, isOpChar c = false)
    (i : Nat) : clusterAt l i = false := by
  unfold clusterAt
  by_cases h2 : 2 ≤ opRun (l.drop i)
  · have h1 : 1 ≤ opRun (l.drop i) := by omega
    obtain ⟨c, hc, hop⟩ := opRun_pos_head h1
    have := h c ((List.drop_sublist i l).mem hc)
    rw [this] at hop
    exact absurd hop (by simp)
  · simpa using h2

/-- No cluster, no window offset found. -/
theorem findA_none {l : List Char} (h : ∀ i, clusterAt l i = false) :
    ∀ b, findA l b = none := by
  intro b
  induction b with
  | zero => simp [findA, h 0]
  | succ b ih => simp [findA, h (b + 1), ih]

/-- The operator-fragment rule is the identity on operator-free text. -/
theorem opSubF_no_op {fuel : Nat} {l : List Char}
    (h : ∀ c ∈ l, isOpChar c = false) : opSubF fuel l = l := by
  induction fuel generalizing l with
  | zero => rfl
  | succ fuel ih =>
    cases l with
    | nil => rfl
    | cons c cs =>
      have hm : opMatchHere (c :: cs) = none := by
        unfold opMatchHere
        rw [findA_none (clusterAt_false_of_no_op h)]
      have hcs : ∀ x ∈ cs, isOpChar x = false :=
        fun x hx => h x (List.mem_cons_of_mem c hx)
      simp [opSubF, hm, ih hcs]

/-- The long-number rule is the identity on digit-free text. -/
theorem subLongNumF_no_digit {fuel : Nat} {prev : Bool} {l : List Char}
    (h : ∀ c ∈ l, c.isDigit = false) : subLongNumF fuel prev l = l := by
  induction fuel generalizing prev l with
  | zero => rfl
  | succ fuel ih =>
    cases l with
    | nil => rfl
    | cons c cs =>
      have hc : c.isDigit = false := h c (List.mem_cons_self c cs)
      have hcs : ∀ x ∈ cs, x.isDigit = false :=
        fun x hx => h x (List.mem_cons_of_mem c hx)
      simp [subLongNumF, hc, ih hcs]

/-- Digit-free text has no standalone numeric tokens. -/
theorem numTokensF_no_digit {fuel : Nat} {prev : Bool} {l : List Char}
    (h : ∀ c ∈ l, c.isDigit = false) : numTokensF fuel prev l = [] := by
  induction fuel generalizing prev l with
  | zero => rfl
  | succ fuel ih =>
    cases l with
    | nil => rfl
    | cons c cs =>
      have hc : c.isDigit = false := h c (List.mem_cons_self c cs)
      have hcs : ∀ x ∈ cs, x.isDigit = false :=
        fun x hx => h x (List.mem_cons_of_mem c hx)
      simp [numTokensF, hc, ih hcs]

/-- The numeric-cap stage is the identity on digit-free text. -/
theorem capStage_no_digit {l : List Char} (h : ∀ c ∈ l, c.isDigit = false) :
    capStage l = l := by
  unfold capStage
  have hz : numTokens l = [] := numTokensF_no_digit h
  rw [hz]
  simp

/-- A `[formula]` or `[num]` chain can only start at an opening bracket. -/
theorem parseRepsFF_no_bracket {fuel : Nat} {l : List Char}
    (h : (l.headD ' ') ≠ '[') : parseRepsFF fuel l = (0, 0) := by
  cases fuel with
  | zero => rfl
  | succ fuel =>
    have hpre : (fLit.isPrefixOf l) = false := by
      cases l with
      | nil => rfl
      | cons c cs =>
        have hc : c ≠ '[' := h
        simp [fLit, List.isPrefixOf, BEq.beq]
        intro he
        exact absurd he.symm hc
    simp [parseRepsFF, hpre]

/-- Same for `[num]` chains. -/
theorem parseRepsNF_no_bracket {fuel : Nat} {l : List Char}
    (h : (l.headD ' ') ≠ '[') : parseRepsNF fuel l = (0, 0) := by
  cases fuel with
  | zero => rfl
  | succ fuel =>
    have hpre : (nLit.isPrefixOf l) = false := by
      cases l with
      | nil => rfl
      | cons c cs =>
        have hc : c ≠ '[' := h
        simp [nLit, List.isPrefixOf, BEq.beq]
        intro he
        exact absurd he.symm hc
    simp [parseRepsNF, hpre]

/-- The formula-placeholder collapse is the identity on bracket-free text. -/
theorem collapseFF_no_bracket {fuel : Nat} {l : List Char}
    (h : ∀ c ∈ l, c ≠ '[') : collapseFF fuel l = l := by
  induction fuel generalizing l with
  | zero => rfl
  | succ fuel ih =>
    cases l with
    | nil => rfl
    | cons c cs =>
      have hc : c ≠ '[' := h c (List.mem_cons_self c cs)
      have hcs : ∀ x ∈ cs, x ≠ '[' :=
        fun x hx => h x (List.mem_cons_of_mem c hx)
      have hpr : parseRepsFF (cs.length + 1) (c :: cs) = (0, 0) :=
        parseRepsFF_no_bracket hc
      simp [collapseFF, hpr, ih hcs]

/-- The numeric-placeholder collapse is the identity on bracket-free text. -/
theorem collapseNF_no_bracket {fuel : Nat} {l : List Char}
    (h : ∀ c ∈ l, c ≠ '[') : collapseNF fuel l = l := by
  induction fuel generalizing l with
  | zero => rfl
  | succ fuel ih =>
    cases l with
    | nil => rfl
    | cons c cs =>
      have hc : c ≠ '[' := h c (List.mem_cons_self c cs)
      have hcs : ∀ x ∈ cs, x ≠ '[' :=
        fun x hx => h x (List.mem_cons_of_mem c hx)
      have hpr : parseRepsNF (cs.length + 1) (c :: cs) = (0, 0) :=
        parseRepsNF_no_bracket hc
      simp [collapseNF, hpr, ih hcs]

/-- Dropping the head preserves absence of newline triples. -/
theorem noTripleNl_tail {c : Char} {t : List Char}
    (h : noTripleNl (c :: t) = true) : noTripleNl t = true := by
  match t with
  | [] => rfl
  | [x] => rfl
  | x :: y :: r =>
    rw [noTripleNl] at h
    exact (Bool.and_eq_true _ _ ▸ h).2

/-- Dropping the head preserves absence of horizontal-whitespace pairs. -/
theorem noHwsPair_tail {c : Char} {t : List Char}
    (h : noHwsPair (c :: t) = true) : noHwsPair t = true := by
  match t with
  | [] => rfl
  | x :: r =>
    rw [noHwsPair] at h
    exact (Bool.and_eq_true _ _ ▸ h).2

/-- `dropWhile` preserves absence of newline triples. -/
theorem noTripleNl_dropWhile (p : Char → Bool) {l : List Char}
    (h : noTripleNl l = true) : noTripleNl (l.dropWhile p) = true := by
  induction l with
  | nil => exact h
  | cons c cs ih =>
    rw [List.dropWhile_cons]
    by_cases hp : p c = true
    · rw [if_pos hp]
      exact ih (noTripleNl_tail h)
    · rw [if_neg hp]
      exact h

/-- `dropWhile` preserves absence of horizontal-whitespace pairs. -/
theorem noHwsPair_dropWhile (p : Char → Bool) {l : List Char}
    (h : noHwsPair l = true) : noHwsPair (l.dropWhile p) = true := by
  induction l with
  | nil => exact h
  | cons c cs ih =>
    rw [List.dropWhile_cons]
    by_cases hp : p c = true
    · rw [if_pos hp]
      exact ih (noHwsPair_tail h)
    · rw [if_neg hp]
      exact h

/-- Prepending a non-newline character preserves absence of triples. -/
theorem noTripleNl_cons_of_ne {c : Char} {b : List Char} (hc : c ≠ '\n')
    (hb : noTripleNl b = true) : noTripleNl (c :: b) = true := by
  match b with
  | [] => rfl
  | [x] => rfl
  | x :: y :: r =>
    rw [noTripleNl]
    simp only [Bool.and_eq_true, Bool.not_eq_true']
    exact ⟨by simp [hc], hb⟩

/-- Prepending one newline before a non-newline head preserves absence of
triples. -/
theorem noTripleNl_one_nl {b : List Char} (hb : noTripleNl b = true)
    (hh : b.headD ' ' ≠ '\n') : noTripleNl ('\n' :: b) = true := by
  match b with
  | [] => rfl
  | [x] => rfl
  | x :: y :: r =>
    rw [noTripleNl]
    simp only [Bool.and_eq_true, Bool.not_eq_true']
    have hx : x ≠ '\n' := hh
    exact ⟨by simp [hx], hb⟩

/-- Prepending two newlines before a non-newline head preserves absence of
triples. -/
theorem noTripleNl_two_nl {b : List Char} (hb : noTripleNl b = true)
    (hh : b.headD ' ' ≠ '\n') : noTripleNl ('\n' :: '\n' :: b) = true := by
  match b with
  | [] => rfl
  | x :: r =>
    rw [noTripleNl]
    simp only [Bool.and_eq_true, Bool.not_eq_true']
    have hx : x ≠ '\n' := hh
    exact ⟨by simp [hx], noTripleNl_one_nl hb hh⟩

/-- Pair-freeness survives a cons whenever the tail is pair-free and starts
with a non-horizontal-whitespace character. -/
theorem noHwsPair_cons_head {c : Char} {b : List Char}
    (hb : noHwsPair b = true) (hh : isHws (b.headD 'x') = false) :
    noHwsPair (c :: b) = true := by
  match b with
  | [] => rfl
  | x :: r =>
    rw [noHwsPair]
    simp only [Bool.and_eq_true, Bool.not_eq_true']
    have hx : isHws x = false := hh
    exact ⟨by simp [hx], hb⟩

/-- Pair-freeness survives a cons of a non-horizontal-whitespace character. -/
theorem noHwsPair_cons_of_not {c : Char} {b : List Char}
    (hc : isHws c = false) (hb : noHwsPair b = true) :
    noHwsPair (c :: b) = true := by
  match b with
  | [] => rfl
  | x :: r =>
    rw [noHwsPair]
    simp only [Bool.and_eq_true, Bool.not_eq_true']
    exact ⟨by simp [hc], hb⟩

/-- The head after dropping leading newlines is not a newline. -/
theorem dropWhile_nl_headD (cs : List Char) :
    ((cs.dropWhile (fun x => x = '\n')).headD ' ') ≠ '\n' := by
  induction cs with
  | nil => decide
  | cons c cs ih =>
    rw [List.dropWhile_cons]
    by_cases hc : c = '\n'
    · rw [if_pos (by simp [hc])]
      exact ih
    · rw [if_neg (by simp [hc])]
      exact hc

/-- The head after dropping leading horizontal whitespace is not horizontal
whitespace. -/
theorem dropWhile_hws_headD (cs : List Char) :
    isHws ((cs.dropWhile isHws).headD 'x') = false := by
  induction cs with
  | nil => decide
  | cons c cs ih =>
    rw [List.dropWhile_cons]
    by_cases hc : isHws c = true
    · rw [if_pos hc]
      exact ih
    · rw [if_neg hc]
      simpa using hc

/-- The newline collapse preserves a non-newline head. -/
theorem nlCollapseF_headD {fuel : Nat} {l : List Char}
    (h : l.headD ' ' ≠ '\n') : (nlCollapseF fuel l).headD ' ' = l.headD ' ' := by
  cases fuel with
  | zero => rfl
  | succ fuel =>
    cases l with
    | nil => rfl
    | cons c cs =>
      have hc : ¬ c = '\n' := h
      rw [nlCollapseF, if_neg hc]
      rfl

/-- The newline collapse never outputs three consecutive newlines. -/
theorem nlCollapseF_noTriple (fuel : Nat) : ∀ l : List Char, l.length ≤ fuel →
    noTripleNl (nlCollapseF fuel l) = true := by
  induction fuel with
  | zero =>
    intro l hl
    rw [List.length_eq_zero.mp (Nat.le_zero.mp hl)]
    rfl
  | succ fuel ih =>
    intro l hl
    cases l with
    | nil => rfl
    | cons c cs =>
      simp only [nlCollapseF]
      have hcs : cs.length ≤ fuel := by
        simp only [List.length_cons] at hl
        omega
      by_cases hc : c = '\n'
      · rw [if_pos hc]
        have hrl : (cs.dropWhile (fun x => x = '\n')).length ≤ fuel :=
          le_trans ((List.dropWhile_sublist _).length_le) hcs
        have hout : noTripleNl (nlCollapseF fuel (cs.dropWhile (fun x => x = '\n'))) = true :=
          ih _ hrl
        have hhead : (nlCollapseF fuel (cs.dropWhile (fun x => x = '\n'))).headD ' ' ≠ '\n' := by
          rw [nlCollapseF_headD (dropWhile_nl_headD cs)]
          exact dropWhile_nl_headD cs
        by_cases h2 : 2 ≤ (cs.takeWhile (fun x => x = '\n')).length
        · rw [if_pos h2]
          exact noTripleNl_two_nl hout hhead
        · rw [if_neg h2]
          cases hns : cs.takeWhile (fun x => x = '\n') with
          | nil =>
            subst hc
            simp only [List.cons_append, List.nil_append]
            exact noTripleNl_one_nl hout hhead
          | cons a as =>
            have ha : a = '\n' := by
              have := List.mem_takeWhile_imp (hns ▸ List.mem_cons_self a as)
              simpa using this
            have has : as = [] := by
              rw [hns] at h2
              simp only [List.length_cons] at h2
              cases as with
              | nil => rfl
              | cons b bs => simp at h2
            subst hc ha has
            simp only [List.cons_append, List.nil_append]
            exact noTripleNl_two_nl hout hhead
      · rw [if_neg hc]
        exact noTripleNl_cons_of_ne hc (ih cs hcs)

/-- The newline collapse is the identity on triple-free text. -/
theorem nlCollapseF_of_noTriple (fuel : Nat) : ∀ l : List Char,
    noTripleNl l = true → nlCollapseF fuel l = l := by
  induction fuel with
  | zero => intro l _; rfl
  | succ fuel ih =>
    intro l h
    cases l with
    | nil => rfl
    | cons c cs =>
      simp only [nlCollapseF]
      by_cases hc : c = '\n'
      · rw [if_pos hc]
        have hsplit : cs.takeWhile (fun x => x = '\n') ++
            cs.dropWhile (fun x => x = '\n') = cs :=
          List.takeWhile_append_dropWhile _ _
        cases hns : cs.takeWhile (fun x => x = '\n') with
        | nil =>
          rw [hns] at hsplit
          simp only [List.nil_append] at hsplit
          rw [hsplit, if_neg (by simp), ih cs (noTripleNl_tail h)]
          simp
        | cons a as =>
          have ha : a = '\n' := by
            have := List.mem_takeWhile_imp (hns ▸ List.mem_cons_self a as)
            simpa using this
          cases as with
          | nil =>
            rw [hns] at hsplit
            simp only [List.cons_append, List.nil_append] at hsplit
            rw [if_neg (by simp)]
            rw [ih (cs.dropWhile (fun x => x = '\n'))
              (noTripleNl_dropWhile _ (noTripleNl_tail h))]
            simp only [List.cons_append, List.nil_append]
            rw [hsplit]
          | cons b bs =>
            have hb : b = '\n' := by
              have := List.mem_takeWhile_imp
                (hns ▸ List.mem_cons_of_mem a (List.mem_cons_self b bs))
              simpa using this
            exfalso
            rw [hns] at hsplit
            rw [← hsplit, ha, hb] at h
            subst hc
            simp only [List.cons_append] at h
            rw [noTripleNl] at h
            simp at h
      · rw [if_neg hc]
        rw [ih cs (noTripleNl_tail h)]

/-- The horizontal-whitespace collapse preserves the horizontal-whitespace
status of the head. -/
theorem hwsCollapseF_headD_hws (fuel : Nat) (l : List Char) :
    isHws ((hwsCollapseF fuel l).headD 'x') = isHws (l.headD 'x') := by
  cases fuel with
  | zero => rfl
  | succ fuel =>
    cases l with
    | nil => rfl
    | cons c cs =>
      simp only [hwsCollapseF]
      by_cases hc : isHws c = true
      · rw [if_pos hc]
        by_cases h1 : 1 ≤ (cs.takeWhile isHws).length
        · rw [if_pos h1]
          show isHws ' ' = isHws c
          rw [hc]
          decide
        · rw [if_neg h1]
          simp
      · rw [if_neg hc]
        rfl

/-- The horizontal-whitespace collapse never outputs two consecutive
spaces/tabs. -/
theorem hwsCollapseF_noHws (fuel : Nat) : ∀ l : List Char, l.length ≤ fuel →
    noHwsPair (hwsCollapseF fuel l) = true := by
  induction fuel with
  | zero =>
    intro l hl
    rw [List.length_eq_zero.mp (Nat.le_zero.mp hl)]
    rfl
  | succ fuel ih =>
    intro l hl
    cases l with
    | nil => rfl
    | cons c cs =>
      simp only [hwsCollapseF]
      have hcs : cs.length ≤ fuel := by
        simp only [List.length_cons] at hl
        omega
      by_cases hc : isHws c = true
      · rw [if_pos hc]
        have hrl : (cs.dropWhile isHws).length ≤ fuel :=
          le_trans ((List.dropWhile_sublist _).length_le) hcs
        have hout : noHwsPair (hwsCollapseF fuel (cs.dropWhile isHws)) = true :=
          ih _ hrl
        have hhead : isHws ((hwsCollapseF fuel (cs.dropWhile isHws)).headD 'x') = false := by
          rw [hwsCollapseF_headD_hws]
          exact dropWhile_hws_headD cs
        by_cases h1 : 1 ≤ (cs.takeWhile isHws).length
        · rw [if_pos h1]
          exact noHwsPair_cons_head hout hhead
        · rw [if_neg h1]
          exact noHwsPair_cons_head hout hhead
      · rw [if_neg hc]
        exact noHwsPair_cons_of_not (by simpa using hc) (ih cs hcs)

/-- The horizontal-whitespace collapse is the identity on pair-free text. -/
theorem hwsCollapseF_of_noHws (fuel : Nat) : ∀ l : List Char,
    noHwsPair l = true → hwsCollapseF fuel l = l := by
  induction fuel with
  | zero => intro l _; rfl
  | succ fuel ih =>
    intro l h
    cases l with
    | nil => rfl
    | cons c cs =>
      simp only [hwsCollapseF]
      by_cases hc : isHws c = true
      · rw [if_pos hc]
        have hsplit : cs.takeWhile isHws ++ cs.dropWhile isHws = cs :=
          List.takeWhile_append_dropWhile _ _
        cases hns : cs.takeWhile isHws with
        | nil =>
          rw [hns] at hsplit
          simp only [List.nil_append] at hsplit
          rw [hsplit, if_neg (by simp), ih cs (noHwsPair_tail h)]
          simp
        | cons a as =>
          exfalso
          have ha : isHws a = true :=
            List.mem_takeWhile_imp (hns ▸ List.mem_cons_self a as)
          rw [hns] at hsplit
          rw [← hsplit, List.cons_append, noHwsPair] at h
          simp [hc, ha] at h
      · rw [if_neg hc]
        rw [ih cs (noHwsPair_tail h)]

/-- If the whitespace collapse outputs a leading newline, the input had one. -/
theorem hwsCollapseF_nl_head : ∀ (fuel : Nat) (y r : List Char),
    hwsCollapseF fuel y = '\n' :: r → ∃ t, y = '\n' :: t := by
  intro fuel y r h
  cases fuel with
  | zero => exact ⟨r, h⟩
  | succ fuel =>
    cases y with
    | nil => simp [hwsCollapseF] at h
    | cons a as =>
      simp only [hwsCollapseF] at h
      by_cases ha : isHws a = true
      · rw [if_pos ha] at h
        exfalso
        by_cases h1 : 1 ≤ (as.takeWhile isHws).length
        · rw [if_pos h1] at h
          simp only [List.cons_append, List.nil_append] at h
          have : (' ' : Char) = '\n' := (List.cons_eq_cons.mp h).1
          exact absurd this (by decide)
        · rw [if_neg h1] at h
          simp only [List.cons_append, List.nil_append] at h
          have : a = '\n' := (List.cons_eq_cons.mp h).1
          rw [this] at ha
          exact absurd ha (by decide)
      · rw [if_neg ha] at h
        exact ⟨as, by rw [(List.cons_eq_cons.mp h).1]⟩

/-- If the whitespace collapse outputs two leading newlines, the input had
two. -/
theorem hwsCollapseF_two_nl {fuel : Nat} {x r : List Char}
    (h : hwsCollapseF fuel x = '\n' :: '\n' :: r) : ∃ t, x = '\n' :: '\n' :: t := by
  cases fuel with
  | zero => exact ⟨r, h⟩
  | succ fuel =>
    cases x with
    | nil => simp [hwsCollapseF] at h
    | cons a as =>
      simp only [hwsCollapseF] at h
      by_cases ha : isHws a = true
      · rw [if_pos ha] at h
        exfalso
        by_cases h1 : 1 ≤ (as.takeWhile isHws).length
        · rw [if_pos h1] at h
          simp only [List.cons_append, List.nil_append] at h
          have : (' ' : Char) = '\n' := (List.cons_eq_cons.mp h).1
          exact absurd this (by decide)
        · rw [if_neg h1] at h
          simp only [List.cons_append, List.nil_append] at h
          have : a = '\n' := (List.cons_eq_cons.mp h).1
          rw [this] at ha
          exact absurd ha (by decide)
      · rw [if_neg ha] at h
        obtain ⟨he, hrest⟩ := List.cons_eq_cons.mp h
        obtain ⟨t, ht⟩ := hwsCollapseF_nl_head fuel as r hrest
        exact ⟨t, by rw [he, ht]⟩

/-- The horizontal-whitespace collapse preserves newline-triple-freeness. -/
theorem hwsCollapseF_noTriple (fuel : Nat) : ∀ l : List Char, l.length ≤ fuel →
    noTripleNl l = true → noTripleNl (hwsCollapseF fuel l) = true := by
  induction fuel with
  | zero =>
    intro l hl _
    rw [List.length_eq_zero.mp (Nat.le_zero.mp hl)]
    rfl
  | succ fuel ih =>
    intro l hl h
    cases l with
    | nil => rfl
    | cons c cs =>
      simp only [hwsCollapseF]
      have hcs : cs.length ≤ fuel := by
        simp only [List.length_cons] at hl
        omega
      by_cases hc : isHws c = true
      · rw [if_pos hc]
        have hrl : (cs.dropWhile isHws).length ≤ fuel :=
          le_trans ((List.dropWhile_sublist _).length_le) hcs
        have hout : noTripleNl (hwsCollapseF fuel (cs.dropWhile isHws)) = true :=
          ih _ hrl (noTripleNl_dropWhile _ (noTripleNl_tail h))
        by_cases h1 : 1 ≤ (cs.takeWhile isHws).length
        · rw [if_pos h1]
          simp only [List.cons_append, List.nil_append]
          exact noTripleNl_cons_of_ne (by decide) hout
        · rw [if_neg h1]
          simp only [List.cons_append, List.nil_append]
          have hcnl : c ≠ '\n' := by
            intro he
            rw [he] at hc
            exact absurd hc (by decide)
          exact noTripleNl_cons_of_ne hcnl hout
      · rw [if_neg hc]
        have hout : noTripleNl (hwsCollapseF fuel cs) = true :=
          ih cs hcs (noTripleNl_tail h)
        by_cases hcnl : c = '\n'
        · subst hcnl
          cases hsh : hwsCollapseF fuel cs with
          | nil => decide
          | cons x t =>
            cases t with
            | nil => rfl
            | cons y r =>
              rw [hsh] at hout
              rw [noTripleNl]
              simp only [Bool.and_eq_true, Bool.not_eq_true']
              refine ⟨?_, hout⟩
              by_cases hx : x = '\n'
              · by_cases hy : y = '\n'
                · exfalso
                  rw [hx, hy] at hsh
                  obtain ⟨t2, ht2⟩ := hwsCollapseF_two_nl hsh
                  rw [ht2] at h
                  rw [noTripleNl] at h
                  simp at h
                · simp [hy]
              · simp [hx]
        · exact noTripleNl_cons_of_ne hcnl hout

/-- Triple-freeness passes to the right part of an append. -/
theorem noTripleNl_append_right {a b : List Char}
    (h : noTripleNl (a ++ b) = true) : noTripleNl b = true := by
  induction a with
  | nil => exact h
  | cons x xs ih =>
    exact ih (noTripleNl_tail h)

/-- Triple-freeness passes to the left part of an append. -/
theorem noTripleNl_append_left {a b : List Char}
    (h : noTripleNl (a ++ b) = true) : noTripleNl a = true := by
  induction a with
  | nil => rfl
  | cons x xs ih =>
    cases xs with
    | nil => rfl
    | cons y ys =>
      cases ys with
      | nil => rfl
      | cons z zs =>
        rw [noTripleNl]
        simp only [Bool.and_eq_true]
        constructor
        · simp only [List.cons_append] at h
          rw [noTripleNl] at h
          exact (Bool.and_eq_true _ _ ▸ h).1
        · exact ih (noTripleNl_tail h)

/-- Pair-freeness passes to the right part of an append. -/
theorem noHwsPair_append_right {a b : List Char}
    (h : noHwsPair (a ++ b) = true) : noHwsPair b = true := by
  induction a with
  | nil => exact h
  | cons x xs ih =>
    exact ih (noHwsPair_tail h)

/-- Pair-freeness passes to the left part of an append. -/
theorem noHwsPair_append_left {a b : List Char}
    (h : noHwsPair (a ++ b) = true) : noHwsPair a = true := by
  induction a with
  | nil => rfl
  | cons x xs ih =>
    cases xs with
    | nil => rfl
    | cons y ys =>
      rw [noHwsPair]
      simp only [Bool.and_eq_true]
      constructor
      · simp only [List.cons_append] at h
        rw [noHwsPair] at h
        exact (Bool.and_eq_true _ _ ▸ h).1
      · exact ih (noHwsPair_tail h)

/-- `str.strip()` returns a contiguous slice of its input. -/
theorem pyStrip_decomp (l : List Char) :
    ∃ a b, a ++ (pyStrip l ++ b) = l := by
  have h1 : l.dropWhile pyIsSpace <:+ l := List.dropWhile_suffix pyIsSpace
  have h2 : List.rdropWhile pyIsSpace (l.dropWhile pyIsSpace) <+:
      l.dropWhile pyIsSpace := List.rdropWhile_prefix pyIsSpace _
  obtain ⟨a, ha⟩ := h1
  obtain ⟨b, hb⟩ := h2
  refine ⟨a, b, ?_⟩
  have hps : pyStrip l = List.rdropWhile pyIsSpace (l.dropWhile pyIsSpace) := rfl
  rw [hps, hb, ha]

/-- `str.strip()` preserves newline-triple-freeness. -/
theorem noTripleNl_pyStrip {l : List Char} (h : noTripleNl l = true) :
    noTripleNl (pyStrip l) = true := by
  obtain ⟨a, b, hab⟩ := pyStrip_decomp l
  rw [← hab] at h
  exact noTripleNl_append_left (noTripleNl_append_right h)

/-- `str.strip()` preserves horizontal-whitespace-pair-freeness. -/
theorem noHwsPair_pyStrip {l : List Char} (h : noHwsPair l = true) :
    noHwsPair (pyStrip l) = true := by
  obtain ⟨a, b, hab⟩ := pyStrip_decomp l
  rw [← hab] at h
  exact noHwsPair_append_left (noHwsPair_append_right h)

/-- A prefix of a `dropWhile`-fixed list is itself `dropWhile`-fixed. -/
theorem dropWhile_eq_self_of_prefix (p : Char → Bool) {x y : List Char}
    (hx : x.dropWhile p = x) (hpre : y <+: x) : y.dropWhile p = y := by
  obtain ⟨t, ht⟩ := hpre
  cases y with
  | nil => rfl
  | cons c cs =>
    rw [List.dropWhile_cons]
    by_cases hp : p c = true
    · exfalso
      rw [← ht, List.cons_append, List.dropWhile_cons, if_pos hp] at hx
      have hlen : ((cs ++ t).dropWhile p).length ≤ (cs ++ t).length :=
        (List.dropWhile_sublist p).length_le
      rw [hx] at hlen
      simp at hlen
    · rw [if_neg hp]

/-- `str.strip()` is idempotent. -/
theorem pyStrip_idem (l : List Char) : pyStrip (pyStrip l) = pyStrip l := by
  have hps : ∀ m : List Char,
      pyStrip m = List.rdropWhile pyIsSpace (m.dropWhile pyIsSpace) :=
    fun m => rfl
  have hx : (l.dropWhile pyIsSpace).dropWhile pyIsSpace = l.dropWhile pyIsSpace :=
    List.dropWhile_idempotent pyIsSpace l
  have hw : (pyStrip l).dropWhile pyIsSpace = pyStrip l :=
    dropWhile_eq_self_of_prefix pyIsSpace hx (List.rdropWhile_prefix pyIsSpace _)
  rw [hps (pyStrip l), hw, hps l]
  exact List.rdropWhile_idempotent pyIsSpace _

/-- Characters of the newline-collapse output come from the input or are
newlines. -/
theorem nlCollapseF_mem : ∀ {fuel : Nat} {l : List Char} {x : Char},
    x ∈ nlCollapseF fuel l → x ∈ l ∨ x = '\n' := by
  intro fuel
  induction fuel with
  | zero => intro l x hx; exact Or.inl hx
  | succ fuel ih =>
    intro l x hx
    cases l with
    | nil => simp [nlCollapseF] at hx
    | cons c cs =>
      simp only [nlCollapseF] at hx
      by_cases hc : c = '\n'
      · rw [if_pos hc] at hx
        rcases List.mem_append.mp hx with hp | hr
        · by_cases h2 : 2 ≤ (cs.takeWhile (fun y => y = '\n')).length
          · rw [if_pos h2] at hp
            right
            simpa using hp
          · rw [if_neg h2] at hp
            rcases List.mem_cons.mp hp with he | hns
            · exact Or.inl (he ▸ List.mem_cons_self c cs)
            · right
              simpa using List.mem_takeWhile_imp hns
        · rcases ih hr with hmem | hnl
          · exact Or.inl (List.mem_cons_of_mem c ((List.dropWhile_sublist _).mem hmem))
          · exact Or.inr hnl
      · rw [if_neg hc] at hx
        rcases List.mem_cons.mp hx with he | hr
        · exact Or.inl (he ▸ List.mem_cons_self c cs)
        · rcases ih hr with hmem | hnl
          · exact Or.inl (List.mem_cons_of_mem c hmem)
          · exact Or.inr hnl

/-- Characters of the whitespace-collapse output come from the input or are
spaces. -/
theorem hwsCollapseF_mem : ∀ {fuel : Nat} {l : List Char} {x : Char},
    x ∈ hwsCollapseF fuel l → x ∈ l ∨ x = ' ' := by
  intro fuel
  induction fuel with
  | zero => intro l x hx; exact Or.inl hx
  | succ fuel ih =>
    intro l x hx
    cases l with
    | nil => simp [hwsCollapseF] at hx
    | cons c cs =>
      simp only [hwsCollapseF] at hx
      by_cases hc : isHws c = true
      · rw [if_pos hc] at hx
        rcases List.mem_append.mp hx with hp | hr
        · by_cases h1 : 1 ≤ (cs.takeWhile isHws).length
          · rw [if_pos h1] at hp
            right
            simpa using hp
          · rw [if_neg h1] at hp
            left
            have : x = c := by simpa using hp
            exact this ▸ List.mem_cons_self c cs
        · rcases ih hr with hmem | hsp
          · exact Or.inl (List.mem_cons_of_mem c ((List.dropWhile_sublist _).mem hmem))
          · exact Or.inr hsp
      · rw [if_neg hc] at hx
        rcases List.mem_cons.mp hx with he | hr
        · exact Or.inl (he ▸ List.mem_cons_self c cs)
        · rcases ih hr with hmem | hsp
          · exact Or.inl (List.mem_cons_of_mem c hmem)
          · exact Or.inr hsp

/-- Characters of a stripped list come from the input. -/
theorem pyStrip_mem {l : List Char} {x : Char} (hx : x ∈ pyStrip l) : x ∈ l := by
  obtain ⟨a, b, hab⟩ := pyStrip_decomp l
  rw [← hab]
  exact List.mem_append.mpr (Or.inr (List.mem_append.mpr (Or.inl hx)))

/-- Unpacking the redaction-free character class. -/
theorem plainChar_split {c : Char} (h : plainChar c = true) :
    c ≠ '$' ∧ isOpChar c = false ∧ c.isDigit = false ∧ c ≠ '[' := by
  rw [plainChar] at h
  simp only [Bool.not_eq_true', Bool.or_eq_false_iff, decide_eq_false_iff_not] at h
  exact ⟨h.1.1.1, h.1.1.2, h.1.2, h.2⟩

/-- On redaction-free text the sanitizer is exactly whitespace
normalization: collapse newline runs, collapse space/tab runs, strip. -/
theorem cleanChars_plain {l : List Char} (h : ∀ c ∈ l, plainChar c = true) :
    cleanChars l = pyStrip (hwsCollapse (nlCollapse l)) := by
  have hd : '$' ∉ l := fun hm => ((plainChar_split (h '$' hm)).1 rfl)
  have hop : ∀ c ∈ l, isOpChar c = false := fun c hm => (plainChar_split (h c hm)).2.1
  have hdig : ∀ c ∈ l, c.isDigit = false := fun c hm => (plainChar_split (h c hm)).2.2.1
  have hbr : ∀ c ∈ l, c ≠ '[' := fun c hm => (plainChar_split (h c hm)).2.2.2
  have h1 : subDD l = l := subDDF_no_dollar hd
  have h2 : subD l = l := subDF_no_dollar hd
  have h3 : opSub l = l := opSubF_no_op hop
  have h4 : subLongNum l = l := subLongNumF_no_digit hdig
  have h5 : capStage l = l := capStage_no_digit hdig
  have h6 : collapseF l = l := collapseFF_no_bracket hbr
  have h7 : collapseN l = l := collapseNF_no_bracket hbr
  rw [cleanChars, h1, h2, h3, h4, h5, h6, h7]

/-- On redaction-free input the sanitizer's full character pipeline is
idempotent. -/
theorem cleanChars_idem_plain {l : List Char} (h : ∀ c ∈ l, plainChar c = true) :
    cleanChars (cleanChars l) = cleanChars l := by
  have h1 : cleanChars l = pyStrip (hwsCollapse (nlCollapse l)) := cleanChars_plain h
  have hu : noTripleNl (nlCollapse l) = true := nlCollapseF_noTriple l.length l le_rfl
  have hv1 : noHwsPair (hwsCollapse (nlCollapse l)) = true :=
    hwsCollapseF_noHws (nlCollapse l).length _ le_rfl
  have hv2 : noTripleNl (hwsCollapse (nlCollapse l)) = true :=
    hwsCollapseF_noTriple (nlCollapse l).length _ le_rfl hu
  have hw1 : noHwsPair (cleanChars l) = true := by
    rw [h1]
    exact noHwsPair_pyStrip hv1
  have hw2 : noTripleNl (cleanChars l) = true := by
    rw [h1]
    exact noTripleNl_pyStrip hv2
  have hplainw : ∀ c ∈ cleanChars l, plainChar c = true := by
    intro c hc
    rw [h1] at hc
    have hc2 := pyStrip_mem hc
    rcases hwsCollapseF_mem hc2 with hc3 | hsp
    · rcases nlCollapseF_mem hc3 with hc4 | hnl
      · exact h c hc4
      · rw [hnl]
        decide
    · rw [hsp]
      decide
  rw [cleanChars_plain hplainw]
  have hnlw : nlCollapse (cleanChars l) = cleanChars l :=
    nlCollapseF_of_noTriple _ _ hw2
  have hhwsw : hwsCollapse (cleanChars l) = cleanChars l :=
    hwsCollapseF_of_noHws _ _ hw1
  rw [hnlw, hhwsw, h1]
  exact pyStrip_idem _

/-- C4: the spec calls `clean_lyrics` idempotent outright, which is false in
general (see the counterexample theorem); the amended claim holds: on input
free of redactable material (no dollar signs, operator characters, digits or
opening brackets) the sanitizer reduces to whitespace normalization and is
idempotent: cleaning an already-cleaned string changes nothing. -/
theorem clean_lyrics_idempotent_plain (s : String)
    (h : ∀ c ∈ s.toList, plainChar c = true) :
    clean_lyrics (clean_lyrics s) = clean_lyrics s := by
  by_cases hs : s = ""
  · rw [hs]
    rfl
  · have h1 : clean_lyrics s = (cleanChars s.toList).asString := by
      rw [clean_lyrics, if_neg hs]
    by_cases hw : (cleanChars s.toList).asString = ""
    · rw [h1, hw]
      rfl
    · rw [h1, clean_lyrics, if_neg hw, toList_asString, cleanChars_idem_plain h]

/-- Witness: a concrete redaction-free string with messy whitespace, cleaned
twice, equals itself cleaned once. -/
theorem clean_lyrics_idempotent_plain_witness :
    (∀ c ∈ ("hello   world\n\n\n\n\nbye  end " : String).toList, plainChar c = true) ∧
    clean_lyrics (clean_lyrics "hello   world\n\n\n\n\nbye  end ") =
      clean_lyrics "hello   world\n\n\n\n\nbye  end " :=
  ⟨by decide, clean_lyrics_idempotent_plain _ (by decide)⟩
